import Mathlib

/-!
# Verification of the AdventOfCode2025 puzzle solvers

A shallow embedding, in Lean, of the small algorithms of the repository
`harleyndavis/AdventOfCode2025`, together with proofs of the specification
claims about them.  Python integers are modelled by `Int` (or `Nat` for loop
counters and list indices), Python lists by `List`, strings by `List Char`,
and in-place mutation by explicit state passing.  Python's `//` and `%` on
ints are floor division and floor remainder; for the positive constant
divisors appearing in this code they coincide with Lean's `Int.ediv` and
`Int.emod`, i.e. with `/` and `%` on `Int`.
-/

namespace AoC

/-! ## Day 1 (`src/Day1/day1.py`, `src/Day1/benchmark.py`) -/

namespace Day1

def START_POSITION : Int := 50

def POSITION_RANGE : Int := 100

/-- Embedding of `calculate_zero_crossings` (`src/Day1/day1.py`, lines 42-87):
the O(1) formula for the number of arrivals at position 0 and the new
position, for a move of `distance` steps in `direction` from `position`. -/
def calculate_zero_crossings (position direction distance : Int) : Int × Int :=
  let zero_crossings : Int :=
    if direction = 1 then
      let distance_to_first_zero : Int :=
        if position = 0 then POSITION_RANGE else POSITION_RANGE - position
      if distance_to_first_zero ≤ distance then
        1 + (distance - distance_to_first_zero) / POSITION_RANGE
      else 0
    else
      let distance_to_first_zero : Int :=
        if position = 0 then POSITION_RANGE else position
      if distance_to_first_zero ≤ distance then
        1 + (distance - distance_to_first_zero) / POSITION_RANGE
      else 0
  (zero_crossings, (position + direction * distance) % POSITION_RANGE)

/-- One iteration of the `for` loop body of `calculate_zero_crossings_naive`
(`src/Day1/benchmark.py`, lines 39-50): advance by `direction` and wrap. -/
def naive_step (direction current_pos : Int) : Int :=
  let p := current_pos + direction
  if p < 0 then POSITION_RANGE - 1
  else if POSITION_RANGE ≤ p then 0
  else p

/-- The loop of `calculate_zero_crossings_naive`, carrying the state
`(zero_crossings, current_pos)`, one recursive call per loop iteration. -/
def naive_loop (direction : Int) : Nat → Int × Int → Int × Int
  | 0, s => s
  | n + 1, (zero_crossings, current_pos) =>
    let p := naive_step direction current_pos
    naive_loop direction n (if p = 0 then zero_crossings + 1 else zero_crossings, p)

/-- Embedding of `calculate_zero_crossings_naive` (`src/Day1/benchmark.py`,
lines 26-52).  `for _ in range(distance)` performs `distance.toNat`
iterations (none when `distance` is negative). -/
def calculate_zero_crossings_naive (position direction distance : Int) : Int × Int :=
  naive_loop direction distance.toNat (0, position)

theorem naive_loop_acc (direction : Int) (n : Nat) (c p : Int) :
    naive_loop direction n (c, p) =
      (c + (naive_loop direction n (0, p)).1, (naive_loop direction n (0, p)).2) := by
  induction n generalizing c p with
  | zero => simp [naive_loop]
  | succ n ih =>
    simp only [naive_loop]
    rw [ih, ih ((if naive_step direction p = 0 then 0 + 1 else 0))]
    by_cases h : naive_step direction p = 0 <;> simp [h] <;> ring_nf

theorem naive_closed (direction : Int) (hd : direction = 1 ∨ direction = -1) :
    ∀ (n : Nat) (p : Int), 0 ≤ p → p < 100 →
      naive_loop direction n (0, p) = calculate_zero_crossings p direction (n : Int) := by
  intro n
  induction n with
  | zero =>
    intro p h0 h1
    rcases hd with h | h <;> subst h <;>
      simp only [naive_loop, calculate_zero_crossings, POSITION_RANGE] <;>
      refine Prod.ext ?_ ?_ <;> simp only [] <;> (try split_ifs) <;>
      first
        | exact (False.elim (by assumption))
        | omega
  | succ n ih =>
    intro p h0 h1
    have hstep0 : 0 ≤ naive_step direction p := by
      rcases hd with h | h <;> subst h <;> simp only [naive_step, POSITION_RANGE] <;>
        split_ifs <;> omega
    have hstep1 : naive_step direction p < 100 := by
      rcases hd with h | h <;> subst h <;> simp only [naive_step, POSITION_RANGE] <;>
        split_ifs <;> omega
    have hunfold :
        naive_loop direction (n + 1) (0, p) =
          ((if naive_step direction p = 0 then (1 : Int) else 0) +
              (calculate_zero_crossings (naive_step direction p) direction (n : Int)).1,
            (calculate_zero_crossings (naive_step direction p) direction (n : Int)).2) := by
      simp only [naive_loop]
      rw [naive_loop_acc, ih (naive_step direction p) hstep0 hstep1]
      by_cases h : naive_step direction p = 0 <;> simp [h]
    rw [hunfold]
    have hcast : ((n + 1 : Nat) : Int) = (n : Int) + 1 := by push_cast; ring
    rw [hcast]
    rcases hd with h | h <;> subst h <;>
      simp only [calculate_zero_crossings, naive_step, POSITION_RANGE] <;>
      refine Prod.ext ?_ ?_ <;> simp only [] <;> split_ifs <;>
      first
        | exact (False.elim (by assumption))
        | omega

/-- C1: for every position in `[0, 100)`, direction in `{1, -1}` and
distance `≥ 0`, the O(1) `calculate_zero_crossings` returns exactly the same
`(zero_crossings, new_position)` pair as the step-by-step simulation
`calculate_zero_crossings_naive`. -/
theorem day1_calculate_zero_crossings_eq_naive
    (position direction distance : Int)
    (hpos : 0 ≤ position) (hpos' : position < 100)
    (hdir : direction = 1 ∨ direction = -1) (hdist : 0 ≤ distance) :
    calculate_zero_crossings position direction distance =
      calculate_zero_crossings_naive position direction distance := by
  have h := naive_closed direction hdir distance.toNat position hpos hpos'
  rw [calculate_zero_crossings_naive, h, Int.toNat_of_nonneg hdist]

/-- Witness for C1 at `position = 50`, `direction = 1`, `distance = 250`. -/
theorem day1_calculate_zero_crossings_eq_naive_witness :
    calculate_zero_crossings 50 1 250 = calculate_zero_crossings_naive 50 1 250 :=
  day1_calculate_zero_crossings_eq_naive 50 1 250 (by decide) (by decide)
    (Or.inl rfl) (by decide)

end Day1

/-! ## Day 2 (`src/Day2/Day2.py`) -/

namespace Day2

/-- The decimal digit string of `n`, most significant digit first, each
character represented by its digit value in `0..9`.  Embedding of Python's
`str(id_num)` (`src/Day2/Day2.py`, line 74). -/
def id_str (n : Nat) : List Nat := (Nat.digits 10 n).reverse

/-- Python's string repetition `pattern * repetitions`. -/
def pyRepeat (pattern : List Nat) (repetitions : Nat) : List Nat :=
  (List.replicate repetitions pattern).flatten

/-- Embedding of `is_invalid_id` (`src/Day2/Day2.py`, lines 65-89): for every
pattern length in `range(1, length // 2 + 1)`, succeed when the length is
divisible by it, the repetition count is at least 2, and the prefix of that
length repeated that many times equals the whole string. -/
def is_invalid_id (n : Nat) : Bool :=
  let s := id_str n
  let length := s.length
  (List.range' 1 (length / 2)).any fun pattern_len =>
    let pattern := s.take pattern_len
    if length % pattern_len = 0 then
      let repetitions := length / pattern_len
      if 2 ≤ repetitions then
        decide (pyRepeat pattern repetitions = s)
      else false
    else false

theorem pyRepeat_succ (p : List Nat) (k : Nat) :
    pyRepeat p (k + 1) = p ++ pyRepeat p k := by
  simp [pyRepeat, List.replicate_succ]

theorem length_pyRepeat (p : List Nat) (k : Nat) :
    (pyRepeat p k).length = k * p.length := by
  simp [pyRepeat, List.length_flatten, List.map_replicate, List.sum_replicate, smul_eq_mul]

/-- C3: for every positive `n`, `is_invalid_id n` is true exactly when the
decimal digit string of `n` is some string `p` repeated `k ≥ 2` times. -/
theorem day2_is_invalid_id_iff (n : Nat) (hn : 0 < n) :
    is_invalid_id n = true ↔ ∃ p k, 2 ≤ k ∧ id_str n = pyRepeat p k := by
  constructor
  · intro h
    simp only [is_invalid_id, List.any_eq_true] at h
    obtain ⟨pl, _, hcond⟩ := h
    split_ifs at hcond with h1 h2
    · exact ⟨(id_str n).take pl, (id_str n).length / pl, h2,
        (of_decide_eq_true hcond).symm⟩
  · rintro ⟨p, k, hk, heq⟩
    have hs : id_str n ≠ [] := by
      simp only [id_str, ne_eq, List.reverse_eq_nil_iff, Nat.digits_ne_nil_iff_ne_zero]
      omega
    have hp : p ≠ [] := by
      rintro rfl
      apply hs
      rw [heq]
      simp [pyRepeat]
    have hpl : 0 < p.length := List.length_pos.mpr hp
    have hlen : (id_str n).length = k * p.length := by
      rw [heq, length_pyRepeat]
    have hdouble : 2 * p.length ≤ (id_str n).length := by
      rw [hlen]; exact Nat.mul_le_mul_right p.length hk
    obtain ⟨k', rfl⟩ : ∃ k', k = k' + 1 := ⟨k - 1, by omega⟩
    have htake : (id_str n).take p.length = p := by
      rw [heq, pyRepeat_succ, List.take_left]
    simp only [is_invalid_id, List.any_eq_true]
    refine ⟨p.length, ?_, ?_⟩
    · have : p.length ∈ List.range' 1 ((id_str n).length / 2) ↔
          1 ≤ p.length ∧ p.length < 1 + (id_str n).length / 2 := List.mem_range'_1
      rw [this]
      omega
    · rw [if_pos, if_pos]
      · rw [htake]
        have hdiv : (id_str n).length / p.length = k' + 1 := by
          rw [hlen]; exact Nat.mul_div_cancel (k' + 1) hpl
        rw [hdiv, heq]
        exact decide_eq_true rfl
      · have hdiv : (id_str n).length / p.length = k' + 1 := by
          rw [hlen]; exact Nat.mul_div_cancel (k' + 1) hpl
        omega
      · rw [hlen]; exact Nat.mul_mod_left (k' + 1) p.length

/-- Witness for C3 at `n = 1212` (`"1212" = "12" * 2`). -/
theorem day2_is_invalid_id_iff_witness :
    is_invalid_id 1212 = true ↔ ∃ p k, 2 ≤ k ∧ id_str 1212 = pyRepeat p k :=
  day2_is_invalid_id_iff 1212 (by decide)

end Day2

/-! ## Day 5 (`src/Day5/day5.py`) -/

namespace Day5

/-- A parsed input line for `preprocess_input` (`src/Day5/day5.py`, lines
82-122): a line containing `"-"` parses as a range `start-end`, any other
line as a single integer ID. -/
inductive Line where
  | rng (start stop : Int)
  | num (id : Int)
deriving DecidableEq

/-- The gathering loop of `preprocess_input` (lines 98-110): range lines are
collected until the first line without a dash; that line and every later
line is parsed with `int(line)` as an ID.  A dashed line appearing after the
separator would make Python's `int(line)` raise, modelled by `none`. -/
def gather : List Line → Bool → List (Int × Int) → List Int →
    Option (List (Int × Int) × List Int)
  | [], _, ranges, ids => some (ranges, ids)
  | .rng s e :: rest, false, ranges, ids => gather rest false (ranges ++ [(s, e)]) ids
  | .num i :: rest, false, ranges, ids => gather rest true ranges (ids ++ [i])
  | .num i :: rest, true, ranges, ids => gather rest true ranges (ids ++ [i])
  | .rng _ _ :: _, true, _, _ => none

/-- Python's ascending tuple order used by `ranges.sort()` (line 113):
lexicographic on `(start, end)`. -/
def pyLe (a b : Int × Int) : Bool :=
  decide (a.1 < b.1 ∨ (a.1 = b.1 ∧ a.2 ≤ b.2))

/-- One iteration of the merging loop of `preprocess_input` (lines 115-120):
if the next range starts at or before the end of the last merged range,
extend that range's end by `max`; otherwise append the next range. -/
def mergeFold (merged_ranges : List (Int × Int)) (r : Int × Int) :
    List (Int × Int) :=
  match merged_ranges.getLast? with
  | some last =>
      if r.1 ≤ last.2 then merged_ranges.dropLast ++ [(last.1, max last.2 r.2)]
      else merged_ranges ++ [r]
  | none => merged_ranges ++ [r]

/-- Insert into a `pyLe`-sorted list, before the first element the new one
is `pyLe`-below. -/
def insertSorted (r : Int × Int) : List (Int × Int) → List (Int × Int)
  | [] => [r]
  | x :: xs => if pyLe r x then r :: x :: xs else x :: insertSorted r xs

/-- A stable insertion sort by `pyLe`.  Python's `list.sort()` is a stable
sort by the total, antisymmetric tuple order, so its result is the unique
stably-sorted permutation, which this computes. -/
def pySort (l : List (Int × Int)) : List (Int × Int) := l.foldr insertSorted []

/-- Embedding of `preprocess_input` (lines 82-122): gather ranges and IDs,
sort the ranges ascending, and merge overlapping ranges. -/
def preprocess_input (data : List Line) :
    Option (List (Int × Int) × List Int) :=
  match gather data false [] [] with
  | none => none
  | some (ranges, ids_to_check) =>
      some ((pySort ranges).foldl mergeFold [], ids_to_check)

/-- The inner `for start, end in ranges` loop of `solve_part1` (lines 54-58)
with its `break`: add 1 for the first range containing `id`, if any. -/
def inner_loop (id : Int) : List (Int × Int) → Int → Int
  | [], result => result
  | (s, e) :: rest, result =>
      if s ≤ id ∧ id ≤ e then result + 1 else inner_loop id rest result

/-- Embedding of `solve_part1` (`src/Day5/day5.py`, lines 42-60). -/
def solve_part1 (ranges : List (Int × Int)) (ids_to_check : List Int) : Int :=
  ids_to_check.foldl (fun result id => inner_loop id ranges result) 0

/-- The membership count that claim C6 attributes to `solve_part1`, written
from the spec's words: the number of IDs lying in at least one *half-open*
interval `[start, end)`. -/
def count_half_open (ranges : List (Int × Int)) (ids : List Int) : Int :=
  ((ids.filter fun id => ranges.any fun r => decide (r.1 ≤ id ∧ id < r.2)).length : Int)

/-- The closed-interval membership count: the number of IDs lying in at
least one interval `[start, end]`, end included. -/
def count_closed (ranges : List (Int × Int)) (ids : List Int) : Int :=
  ((ids.filter fun id => ranges.any fun r => decide (r.1 ≤ id ∧ id ≤ r.2)).length : Int)

/-- Counterexample to C6 as stated: on the preprocessed input with the
single range `1-5` and the single ID `5`, `solve_part1` counts the ID even
though it only equals the range's end, so `solve_part1` does not compute
half-open membership. -/
theorem day5_part1_half_open_counterexample :
    preprocess_input [Line.rng 1 5, Line.num 5] = some ([(1, 5)], [5]) ∧
      solve_part1 [(1, 5)] [5] = 1 ∧ count_half_open [(1, 5)] [5] = 0 := by
  decide

theorem inner_loop_spec (id : Int) (ranges : List (Int × Int)) (c : Int) :
    inner_loop id ranges c =
      if ranges.any fun r => decide (r.1 ≤ id ∧ id ≤ r.2) then c + 1 else c := by
  induction ranges with
  | nil => simp [inner_loop]
  | cons r rest ih =>
    obtain ⟨s, e⟩ := r
    by_cases h : s ≤ id ∧ id ≤ e
    · simp [inner_loop, List.any_cons, h]
    · simp only [inner_loop, List.any_cons, if_neg h, ih, decide_eq_false h, Bool.false_or]

/-- C6 (amended): `solve_part1 ranges ids` counts the IDs that are members
of at least one interval under *closed* semantics `start ≤ id ≤ end`; an ID
equal to an interval's end value is counted. -/
theorem day5_solve_part1_counts_closed (ranges : List (Int × Int))
    (ids_to_check : List Int) :
    solve_part1 ranges ids_to_check = count_closed ranges ids_to_check := by
  suffices h : ∀ c : Int,
      ids_to_check.foldl (fun result id => inner_loop id ranges result) c =
        c + count_closed ranges ids_to_check by
    simpa [solve_part1] using h 0
  induction ids_to_check with
  | nil => intro c; simp [count_closed]
  | cons id rest ih =>
    intro c
    simp only [List.foldl_cons]
    rw [inner_loop_spec]
    by_cases h : (ranges.any fun r => decide (r.1 ≤ id ∧ id ≤ r.2)) = true
    · have hcount : count_closed ranges (id :: rest) = count_closed ranges rest + 1 := by
        simp only [count_closed, List.filter_cons, h, if_true, List.length_cons]
        push_cast
        ring
      rw [if_pos h, ih (c + 1), hcount]
      ring
    · have hcount : count_closed ranges (id :: rest) = count_closed ranges rest := by
        simp only [count_closed, List.filter_cons]
        rw [if_neg h]
      rw [if_neg h, ih c, hcount]

theorem pyLe_total (a b : Int × Int) : pyLe a b = true ∨ pyLe b a = true := by
  simp only [pyLe, decide_eq_true_eq]
  omega

theorem pyLe_trans {a b c : Int × Int} (h1 : pyLe a b = true) (h2 : pyLe b c = true) :
    pyLe a c = true := by
  simp only [pyLe, decide_eq_true_eq] at h1 h2 ⊢
  omega

theorem pyLe_fst {a b : Int × Int} (h : pyLe a b = true) : a.1 ≤ b.1 := by
  simp only [pyLe, decide_eq_true_eq] at h
  omega

theorem insertSorted_perm (r : Int × Int) (l : List (Int × Int)) :
    (insertSorted r l).Perm (r :: l) := by
  induction l with
  | nil => simp [insertSorted]
  | cons x xs ih =>
    simp only [insertSorted]
    split_ifs
    · exact List.Perm.refl _
    · exact (ih.cons x).trans (List.Perm.swap r x xs)

theorem pySort_perm (l : List (Int × Int)) : (pySort l).Perm l := by
  induction l with
  | nil => simp [pySort]
  | cons x xs ih =>
    have : pySort (x :: xs) = insertSorted x (pySort xs) := rfl
    rw [this]
    exact (insertSorted_perm x (pySort xs)).trans (ih.cons x)

theorem insertSorted_pairwise (r : Int × Int) (l : List (Int × Int))
    (h : List.Pairwise (fun a b => pyLe a b = true) l) :
    List.Pairwise (fun a b => pyLe a b = true) (insertSorted r l) := by
  induction l with
  | nil => simp [insertSorted]
  | cons x xs ih =>
    rw [List.pairwise_cons] at h
    simp only [insertSorted]
    split_ifs with hle
    · rw [List.pairwise_cons]
      refine ⟨?_, List.pairwise_cons.mpr h⟩
      intro b hb
      rcases List.mem_cons.mp hb with rfl | hb
      · exact hle
      · exact pyLe_trans hle (h.1 b hb)
    · rw [List.pairwise_cons]
      have hxr : pyLe x r = true := by
        rcases pyLe_total r x with h' | h'
        · exact absurd h' hle
        · exact h'
      refine ⟨?_, ih h.2⟩
      intro b hb
      rcases List.mem_cons.mp ((insertSorted_perm r xs).mem_iff.mp hb) with rfl | hb
      · exact hxr
      · exact h.1 b hb

theorem pySort_pairwise (l : List (Int × Int)) :
    List.Pairwise (fun a b => pyLe a b = true) (pySort l) := by
  induction l with
  | nil => simp [pySort]
  | cons x xs ih => exact insertSorted_pairwise x (pySort xs) ih

/-- The structural form of the merging loop on a nonempty sorted list,
carrying the range being grown. -/
def mergeRun : Int × Int → List (Int × Int) → List (Int × Int)
  | cur, [] => [cur]
  | cur, r :: rs =>
      if r.1 ≤ cur.2 then mergeRun (cur.1, max cur.2 r.2) rs
      else cur :: mergeRun r rs

theorem mergeFold_concat (acc : List (Int × Int)) (cur r : Int × Int) :
    mergeFold (acc ++ [cur]) r = acc ++ mergeFold [cur] r := by
  simp only [mergeFold, List.getLast?_concat, List.dropLast_concat]
  split_ifs with h <;> simp [h]

theorem foldl_mergeFold_prefix (rs : List (Int × Int)) :
    ∀ (acc : List (Int × Int)) (cur : Int × Int),
      List.foldl mergeFold (acc ++ [cur]) rs = acc ++ List.foldl mergeFold [cur] rs := by
  induction rs with
  | nil => intro acc cur; simp
  | cons r rs ih =>
    intro acc cur
    simp only [List.foldl_cons, mergeFold_concat]
    have hsplit : mergeFold [cur] r =
        if r.1 ≤ cur.2 then [(cur.1, max cur.2 r.2)] else [cur, r] := by
      simp only [mergeFold, List.getLast?_singleton]
      split_ifs with h <;> simp [h]
    rw [hsplit]
    split_ifs
    · exact ih acc (cur.1, max cur.2 r.2)
    · have h2 : acc ++ [cur, r] = (acc ++ [cur]) ++ [r] := by simp
      rw [h2, ih (acc ++ [cur]) r,
        show ([cur, r] : List (Int × Int)) = [cur] ++ [r] from rfl, ih [cur] r]
      simp

theorem foldl_mergeFold_eq_mergeRun (rs : List (Int × Int)) :
    ∀ cur : Int × Int, List.foldl mergeFold [cur] rs = mergeRun cur rs := by
  induction rs with
  | nil => intro cur; simp [mergeRun]
  | cons r rs ih =>
    intro cur
    simp only [List.foldl_cons, mergeRun]
    have hsplit : mergeFold [cur] r =
        if r.1 ≤ cur.2 then [(cur.1, max cur.2 r.2)] else [cur, r] := by
      simp only [mergeFold, List.getLast?_singleton]
      split_ifs with h <;> simp [h]
    rw [hsplit]
    split_ifs
    · exact ih (cur.1, max cur.2 r.2)
    · rw [show ([cur, r] : List (Int × Int)) = [cur] ++ [r] from rfl,
        foldl_mergeFold_prefix rs [cur] r, ih r]
      simp

theorem mergeRun_mem (rs : List (Int × Int)) :
    ∀ (cur : Int × Int) (id : Int),
      (∀ r ∈ rs, cur.1 ≤ r.1) →
      List.Pairwise (fun a b : Int × Int => a.1 ≤ b.1) rs →
      ((∃ r ∈ mergeRun cur rs, r.1 ≤ id ∧ id ≤ r.2) ↔
        (cur.1 ≤ id ∧ id ≤ cur.2) ∨ ∃ r ∈ rs, r.1 ≤ id ∧ id ≤ r.2) := by
  induction rs with
  | nil => intro cur id _ _; simp [mergeRun]
  | cons r rs ih =>
    intro cur id hstart hp
    rw [List.pairwise_cons] at hp
    have hcons : ∀ (a : Int × Int) (l : List (Int × Int)),
        (∃ x ∈ a :: l, x.1 ≤ id ∧ id ≤ x.2) ↔
          (a.1 ≤ id ∧ id ≤ a.2) ∨ ∃ x ∈ l, x.1 ≤ id ∧ id ≤ x.2 := by
      intro a l
      constructor
      · rintro ⟨x, hx, h2⟩
        rcases List.mem_cons.mp hx with rfl | hx
        · exact Or.inl h2
        · exact Or.inr ⟨x, hx, h2⟩
      · rintro (h | ⟨x, hx, h2⟩)
        · exact ⟨a, List.mem_cons_self a l, h⟩
        · exact ⟨x, List.mem_cons_of_mem a hx, h2⟩
    simp only [mergeRun]
    split_ifs with hover
    · rw [ih (cur.1, max cur.2 r.2) id (fun x hx => hstart x (List.mem_cons_of_mem r hx)) hp.2]
      have hiv : (cur.1 ≤ id ∧ id ≤ max cur.2 r.2) ↔
          (cur.1 ≤ id ∧ id ≤ cur.2) ∨ (r.1 ≤ id ∧ id ≤ r.2) := by
        have hc := hstart r (List.mem_cons_self r rs)
        omega
      rw [hiv, hcons r rs]
      exact or_assoc
    · have hnext : ∀ x ∈ rs, r.1 ≤ x.1 := hp.1
      rw [hcons cur (mergeRun r rs), ih r id hnext hp.2, hcons r rs]

theorem mergeRun_head (rs : List (Int × Int)) :
    ∀ cur : Int × Int, ∃ e tl, mergeRun cur rs = (cur.1, e) :: tl := by
  induction rs with
  | nil => intro cur; exact ⟨cur.2, [], rfl⟩
  | cons r rs ih =>
    intro cur
    simp only [mergeRun]
    split_ifs
    · exact ih (cur.1, max cur.2 r.2)
    · exact ⟨cur.2, mergeRun r rs, rfl⟩

theorem mergeRun_chain (rs : List (Int × Int)) :
    ∀ cur : Int × Int, List.Chain' (fun a b : Int × Int => a.2 < b.1) (mergeRun cur rs) := by
  induction rs with
  | nil => intro cur; simp [mergeRun]
  | cons r rs ih =>
    intro cur
    simp only [mergeRun]
    split_ifs with hover
    · exact ih (cur.1, max cur.2 r.2)
    · obtain ⟨e, tl, hrw⟩ := mergeRun_head rs r
      rw [hrw, List.chain'_cons]
      exact ⟨by omega, hrw ▸ ih r⟩

theorem mergeRun_fst_le (rs : List (Int × Int)) :
    ∀ cur : Int × Int, cur.1 ≤ cur.2 → (∀ r ∈ rs, r.1 ≤ r.2) →
      ∀ x ∈ mergeRun cur rs, x.1 ≤ x.2 := by
  induction rs with
  | nil =>
    intro cur hcur _ x hx
    simp only [mergeRun, List.mem_singleton] at hx
    exact hx ▸ hcur
  | cons r rs ih =>
    intro cur hcur hall x hx
    simp only [mergeRun] at hx
    split_ifs at hx with hover
    · refine ih (cur.1, max cur.2 r.2) (by simp; omega)
        (fun y hy => hall y (List.mem_cons_of_mem r hy)) x hx
    · rcases List.mem_cons.mp hx with rfl | hx
      · exact hcur
      · exact ih r (hall r (List.mem_cons_self r rs))
          (fun y hy => hall y (List.mem_cons_of_mem r hy)) x hx

theorem chain_gap_to_starts (l : List (Int × Int)) (hm : ∀ x ∈ l, x.1 ≤ x.2)
    (hc : List.Chain' (fun a b : Int × Int => a.2 < b.1) l) :
    List.Chain' (fun a b : Int × Int => a.1 < b.1) l := by
  induction l with
  | nil => exact List.chain'_nil
  | cons a t ih =>
    cases t with
    | nil => simp
    | cons b t' =>
      rw [List.chain'_cons] at hc ⊢
      refine ⟨?_, ih (fun x hx => hm x (List.mem_cons_of_mem a hx)) hc.2⟩
      have := hm a (List.mem_cons_self a (b :: t'))
      omega

/-- C10: merging in `preprocess_input` preserves closed-interval membership
when every parsed range has `start ≤ end`, and the merged list is sorted by
start with each range's start strictly greater than the previous range's
end. -/
theorem day5_preprocess_input_merge_spec (data : List Line)
    (ranges : List (Int × Int)) (ids : List Int)
    (hg : gather data false [] [] = some (ranges, ids))
    (hse : ∀ r ∈ ranges, r.1 ≤ r.2) :
    ∃ merged, preprocess_input data = some (merged, ids) ∧
      (∀ id : Int, (∃ r ∈ merged, r.1 ≤ id ∧ id ≤ r.2) ↔
        ∃ r ∈ ranges, r.1 ≤ id ∧ id ≤ r.2) ∧
      List.Chain' (fun a b : Int × Int => a.2 < b.1) merged ∧
      List.Chain' (fun a b : Int × Int => a.1 < b.1) merged := by
  refine ⟨(pySort ranges).foldl mergeFold [], ?_, ?_⟩
  · simp [preprocess_input, hg]
  have hperm := pySort_perm ranges
  have hpw : List.Pairwise (fun a b : Int × Int => a.1 ≤ b.1) (pySort ranges) :=
    (pySort_pairwise ranges).imp fun h => pyLe_fst h
  have hse' : ∀ r ∈ pySort ranges, r.1 ≤ r.2 := fun r hr => hse r (hperm.mem_iff.mp hr)
  have hmem0 : ∀ id : Int,
      (∃ r ∈ pySort ranges, r.1 ≤ id ∧ id ≤ r.2) ↔ ∃ r ∈ ranges, r.1 ≤ id ∧ id ≤ r.2 := by
    intro id
    constructor
    · rintro ⟨r, hr, h2⟩; exact ⟨r, hperm.mem_iff.mp hr, h2⟩
    · rintro ⟨r, hr, h2⟩; exact ⟨r, hperm.mem_iff.mpr hr, h2⟩
  cases hs : pySort ranges with
  | nil =>
    have hnil : ranges = [] := by
      have := hperm
      rw [hs] at this
      exact (List.Perm.nil_eq this).symm
    subst hnil
    simp
  | cons s0 rest =>
    rw [hs] at hperm hpw hse' hmem0
    rw [List.pairwise_cons] at hpw
    have hrun : List.foldl mergeFold [] (s0 :: rest) = mergeRun s0 rest := by
      have hstep : List.foldl mergeFold [] (s0 :: rest) = List.foldl mergeFold [s0] rest := by
        simp [List.foldl_cons, mergeFold]
      rw [hstep, foldl_mergeFold_eq_mergeRun]
    rw [hrun]
    refine ⟨?_, ?_, ?_⟩
    · intro id
      rw [mergeRun_mem rest s0 id hpw.1 hpw.2]
      rw [← hmem0 id]
      simp
    · exact mergeRun_chain rest s0
    · exact chain_gap_to_starts _
        (mergeRun_fst_le rest s0 (hse' s0 (List.mem_cons_self s0 rest))
          (fun y hy => hse' y (List.mem_cons_of_mem s0 hy)))
        (mergeRun_chain rest s0)

/-- Witness for C10 on the repository's own Day 5 example input. -/
theorem day5_preprocess_input_merge_spec_witness :
    ∃ merged,
      preprocess_input
          [Line.rng 3 5, Line.rng 10 14, Line.rng 16 20, Line.rng 12 18,
            Line.num 1, Line.num 5] = some (merged, [1, 5]) ∧
      (∀ id : Int, (∃ r ∈ merged, r.1 ≤ id ∧ id ≤ r.2) ↔
        ∃ r ∈ [((3 : Int), (5 : Int)), (10, 14), (16, 20), (12, 18)],
          r.1 ≤ id ∧ id ≤ r.2) ∧
      List.Chain' (fun a b : Int × Int => a.2 < b.1) merged ∧
      List.Chain' (fun a b : Int × Int => a.1 < b.1) merged :=
  day5_preprocess_input_merge_spec
    [Line.rng 3 5, Line.rng 10 14, Line.rng 16 20, Line.rng 12 18,
      Line.num 1, Line.num 5]
    [(3, 5), (10, 14), (16, 20), (12, 18)] [1, 5] (by decide) (by decide)

end Day5

/-! ## Day 3 (`src/Day3/day3.py`) -/

namespace Day3

/-- Python's `int(char)` for a decimal digit character. -/
def char_int (c : Char) : Int := (c.toNat : Int) - 48

/-- Python's `str(v)` for a one-digit nonnegative int `v`: the corresponding
decimal digit character. -/
def str_digit (v : Int) : Char := Char.ofNat (48 + v.toNat)

/-- `[int(char) for char in line if char.isdigit()]`. -/
def line_digits (line : List Char) : List Int :=
  (line.filter Char.isDigit).map char_int

/-- The loop `for i, char in enumerate(line): if char.isdigit():
digit_positions.append((int(char), i))`, started at index `i`. -/
def digit_positions_from (i : Nat) : List Char → List (Int × Nat)
  | [] => []
  | c :: cs =>
      if c.isDigit then (char_int c, i) :: digit_positions_from (i + 1) cs
      else digit_positions_from (i + 1) cs

/-- The digit/position pairs of a line (`src/Day3/day3.py`, lines 97-100). -/
def digit_positions (line : List Char) : List (Int × Nat) :=
  digit_positions_from 0 line

/-- Python's `max(iterable)` over ints: `none` models the `ValueError` on an
empty sequence. -/
def pyMax : List Int → Option Int
  | [] => none
  | x :: xs => some (xs.foldl max x)

/-- Python's `max(iterable, key=lambda x: x[0])`: the *first* element with
maximal first component; `none` models the `ValueError` on empty input. -/
def pyMaxByFst : List (Int × Nat) → Option (Int × Nat)
  | [] => none
  | x :: xs => some (xs.foldl (fun best y => if best.1 < y.1 then y else best) x)

/-- Python's `s.index(c)` for a one-character pattern: the first index of the
character, `none` modelling the `ValueError` when absent. -/
def py_index (c : Char) : List Char → Option Nat
  | [] => none
  | x :: xs => if x = c then some 0 else (py_index c xs).map (· + 1)

/-- The first recorded position carrying digit value `v`. -/
def find_first_fst (v : Int) : List (Int × Nat) → Option Nat
  | [] => none
  | p :: ps => if p.1 = v then some p.2 else find_first_fst v ps

theorem char_int_nonneg {c : Char} (h : c.isDigit = true) :
    0 ≤ char_int c ∧ char_int c ≤ 9 := by
  simp only [Char.isDigit, Bool.and_eq_true, decide_eq_true_eq] at h
  have h1 : 48 ≤ c.toNat := h.1
  have h2 : c.toNat ≤ 57 := h.2
  constructor <;> simp only [char_int] <;> omega

theorem str_digit_char_int {c : Char} (h : c.isDigit = true) :
    str_digit (char_int c) = c := by
  simp only [Char.isDigit, Bool.and_eq_true, decide_eq_true_eq] at h
  have h1 : 48 ≤ c.toNat := h.1
  have heq : 48 + (char_int c).toNat = c.toNat := by
    simp only [char_int]
    omega
  rw [str_digit, heq, Char.ofNat_toNat]

theorem str_digit_spec {v : Int} (h0 : 0 ≤ v) (h9 : v ≤ 9) :
    (str_digit v).isDigit = true ∧ char_int (str_digit v) = v := by
  have : v = 0 ∨ v = 1 ∨ v = 2 ∨ v = 3 ∨ v = 4 ∨ v = 5 ∨ v = 6 ∨ v = 7 ∨
      v = 8 ∨ v = 9 := by omega
  rcases this with rfl | rfl | rfl | rfl | rfl | rfl | rfl | rfl | rfl | rfl <;>
    exact ⟨by decide, by decide⟩

theorem char_eq_str_digit_iff {c : Char} {v : Int} (hc : c.isDigit = true)
    (h0 : 0 ≤ v) (h9 : v ≤ 9) :
    c = str_digit v ↔ char_int c = v := by
  constructor
  · rintro rfl
    exact (str_digit_spec h0 h9).2
  · rintro rfl
    exact (str_digit_char_int hc).symm

theorem digit_positions_from_map_fst (l : List Char) :
    ∀ i, (digit_positions_from i l).map (·.1) = line_digits l := by
  induction l with
  | nil => intro i; simp [digit_positions_from, line_digits]
  | cons c cs ih =>
    intro i
    by_cases h : c.isDigit <;>
      simp [digit_positions_from, line_digits, List.filter_cons, h, ih (i + 1)]

theorem digit_positions_from_bounds (l : List Char) :
    ∀ i, ∀ p ∈ digit_positions_from i l, i ≤ p.2 ∧ p.2 < i + l.length := by
  induction l with
  | nil => intro i p hp; simp [digit_positions_from] at hp
  | cons c cs ih =>
    intro i p hp
    simp only [digit_positions_from] at hp
    split_ifs at hp with h
    · rcases List.mem_cons.mp hp with rfl | hp
      · simp only [List.length_cons]
        omega
      · have := ih (i + 1) p hp
        simp only [List.length_cons]
        omega
    · have := ih (i + 1) p hp
      simp only [List.length_cons]
      omega

theorem digit_positions_from_char (l : List Char) :
    ∀ i, ∀ p ∈ digit_positions_from i l, 0 ≤ p.1 ∧ p.1 ≤ 9 := by
  induction l with
  | nil => intro i p hp; simp [digit_positions_from] at hp
  | cons c cs ih =>
    intro i p hp
    simp only [digit_positions_from] at hp
    split_ifs at hp with h
    · rcases List.mem_cons.mp hp with rfl | hp
      · exact char_int_nonneg h
      · exact ih (i + 1) p hp
    · exact ih (i + 1) p hp

theorem le_foldl_max (xs : List Int) : ∀ x : Int, x ≤ xs.foldl max x := by
  induction xs with
  | nil => intro x; exact le_refl x
  | cons y ys ih => intro x; exact le_trans (le_max_left x y) (ih (max x y))

theorem foldl_max_mem (xs : List Int) : ∀ x : Int, xs.foldl max x = x ∨ xs.foldl max x ∈ xs := by
  induction xs with
  | nil => intro x; exact Or.inl rfl
  | cons y ys ih =>
    intro x
    simp only [List.foldl_cons]
    rcases ih (max x y) with h | h
    · rcases max_choice x y with hm | hm
      · exact Or.inl (h.trans hm)
      · refine Or.inr ?_
        rw [h, hm]
        exact List.mem_cons_self y ys
    · exact Or.inr (List.mem_cons_of_mem y h)

theorem foldl_max_ge (xs : List Int) : ∀ (x : Int), ∀ y ∈ xs, y ≤ xs.foldl max x := by
  induction xs with
  | nil => intro x y hy; simp at hy
  | cons z zs ih =>
    intro x y hy
    simp only [List.foldl_cons]
    rcases List.mem_cons.mp hy with rfl | hy
    · exact le_trans (le_max_right x y) (le_foldl_max zs (max x y))
    · exact ih (max x z) y hy

theorem pyMax_spec {l : List Int} {m : Int} (h : pyMax l = some m) :
    m ∈ l ∧ ∀ y ∈ l, y ≤ m := by
  cases l with
  | nil => simp [pyMax] at h
  | cons x xs =>
    simp only [pyMax, Option.some.injEq] at h
    subst h
    constructor
    · rcases foldl_max_mem xs x with h | h
      · rw [h]; exact List.mem_cons_self x xs
      · exact List.mem_cons_of_mem x h
    · intro y hy
      rcases List.mem_cons.mp hy with rfl | hy
      · exact le_foldl_max xs y
      · exact foldl_max_ge xs x y hy

theorem pyMax_isSome {l : List Int} (h : l ≠ []) : ∃ m, pyMax l = some m := by
  cases l with
  | nil => exact absurd rfl h
  | cons x xs => exact ⟨xs.foldl max x, rfl⟩

theorem foldl_byfst_fst (xs : List (Int × Nat)) :
    ∀ x : Int × Nat,
      (xs.foldl (fun best y => if best.1 < y.1 then y else best) x).1 =
        (xs.map (·.1)).foldl max x.1 := by
  induction xs with
  | nil => intro x; rfl
  | cons y ys ih =>
    intro x
    simp only [List.foldl_cons, List.map_cons]
    rw [ih]
    congr 1
    by_cases h : x.1 < y.1
    · rw [if_pos h]; omega
    · rw [if_neg h]; omega

theorem foldl_byfst_le (xs : List (Int × Nat)) (x : Int × Nat) :
    x.1 ≤ (xs.foldl (fun best y => if best.1 < y.1 then y else best) x).1 := by
  rw [foldl_byfst_fst]
  exact le_foldl_max _ x.1

theorem foldl_byfst_split (xs : List (Int × Nat)) :
    ∀ x : Int × Nat,
      ∃ pre post,
        x :: xs = pre ++ (xs.foldl (fun best y => if best.1 < y.1 then y else best) x) :: post ∧
          ∀ p ∈ pre, p.1 < (xs.foldl (fun best y => if best.1 < y.1 then y else best) x).1 := by
  induction xs with
  | nil => intro x; exact ⟨[], [], rfl, by simp⟩
  | cons y ys ih =>
    intro x
    simp only [List.foldl_cons]
    by_cases h : x.1 < y.1
    · rw [if_pos h]
      obtain ⟨pre, post, hsplit, hlt⟩ := ih y
      refine ⟨x :: pre, post, ?_, ?_⟩
      · rw [List.cons_append, ← hsplit]
      · intro p hp
        rcases List.mem_cons.mp hp with rfl | hp
        · have := foldl_byfst_le ys y
          omega
        · exact hlt p hp
    · rw [if_neg h]
      obtain ⟨pre, post, hsplit, hlt⟩ := ih x
      cases pre with
      | nil =>
        simp only [List.nil_append, List.cons.injEq] at hsplit
        obtain ⟨hx, hys⟩ := hsplit
        refine ⟨[], y :: post, ?_, by simp⟩
        rw [← hx, ← hys]
        rfl
      | cons a pre' =>
        simp only [List.cons_append, List.cons.injEq] at hsplit
        obtain ⟨rfl, hys⟩ := hsplit
        refine ⟨x :: y :: pre', post, ?_, ?_⟩
        · simp only [List.cons_append]
          nth_rewrite 1 [hys]
          rfl
        · intro p hp
          have hx : x.1 < (ys.foldl (fun best y => if best.1 < y.1 then y else best) x).1 :=
            hlt x (List.mem_cons_self x pre')
          rcases List.mem_cons.mp hp with rfl | hp
          · exact hx
          · rcases List.mem_cons.mp hp with rfl | hp
            · omega
            · exact hlt p (List.mem_cons_of_mem x hp)

theorem py_index_eq_find_first {v : Int} (h0 : 0 ≤ v) (h9 : v ≤ 9) :
    ∀ (l : List Char) (i : Nat),
      (py_index (str_digit v) l).map (i + ·) = find_first_fst v (digit_positions_from i l) := by
  intro l
  induction l with
  | nil => intro i; simp [py_index, find_first_fst, digit_positions_from]
  | cons c cs ih =>
    intro i
    by_cases hd : c.isDigit
    · by_cases he : c = str_digit v
      · have hv : char_int c = v := (char_eq_str_digit_iff hd h0 h9).mp he
        simp [py_index, digit_positions_from, hd, he, find_first_fst, hv,
          (str_digit_spec h0 h9).1, (str_digit_spec h0 h9).2]
      · have hne : ¬(char_int c = v) := fun hcv =>
          he ((char_eq_str_digit_iff hd h0 h9).mpr hcv)
        simp only [py_index, if_neg he, digit_positions_from, if_pos hd,
          find_first_fst, if_neg hne]
        rw [← ih (i + 1), Option.map_map]
        congr 1
        funext x
        simp only [Function.comp_apply]
        omega
    · have hne : ¬(c = str_digit v) := by
        intro he
        rw [he] at hd
        exact hd (str_digit_spec h0 h9).1
      simp only [py_index, if_neg hne, digit_positions_from, if_neg hd]
      rw [← ih (i + 1), Option.map_map]
      congr 1
      funext x
      simp only [Function.comp_apply]
      omega

theorem find_first_fst_append {v : Int} (pre : List (Int × Nat)) (m : Int × Nat)
    (post : List (Int × Nat)) (hpre : ∀ p ∈ pre, p.1 ≠ v) (hm : m.1 = v) :
    find_first_fst v (pre ++ m :: post) = some m.2 := by
  induction pre with
  | nil => simp [find_first_fst, hm]
  | cons a pre ih =>
    simp only [List.cons_append, find_first_fst,
      if_neg (hpre a (List.mem_cons_self a pre))]
    exact ih fun p hp => hpre p (List.mem_cons_of_mem a hp)

theorem dpf_filter_ge (k : Nat) :
    ∀ (l : List Char) (i : Nat),
      (digit_positions_from i l).filter (fun p => decide (i + k ≤ p.2)) =
        digit_positions_from (i + k) (l.drop k) := by
  induction k with
  | zero =>
    intro l i
    simp only [Nat.add_zero, List.drop_zero]
    exact List.filter_eq_self.mpr fun p hp =>
      decide_eq_true (by have := digit_positions_from_bounds l i p hp; omega)
  | succ k ih =>
    intro l i
    cases l with
    | nil => simp [digit_positions_from]
    | cons c cs =>
      have harith : i + (k + 1) = (i + 1) + k := by omega
      simp only [digit_positions_from, List.drop_succ_cons]
      by_cases hd : c.isDigit
      · simp only [if_pos hd, List.filter_cons,
          show decide (i + (k + 1) ≤ ((char_int c, i) : Int × Nat).2) = false from by
            simp only [decide_eq_false_iff_not]
            omega]
        simp only [harith]
        exact ih cs (i + 1)
      · simp only [if_neg hd, harith]
        exact ih cs (i + 1)

theorem dpf_filter_lt (m : Nat) :
    ∀ (l : List Char) (i : Nat),
      (digit_positions_from i l).filter (fun p => decide (p.2 < i + m)) =
        digit_positions_from i (l.take m) := by
  induction m with
  | zero =>
    intro l i
    simp only [Nat.add_zero, List.take_zero, digit_positions_from]
    exact List.filter_eq_nil_iff.mpr fun p hp =>
      by
        have := digit_positions_from_bounds l i p hp
        simp
        omega
  | succ m ih =>
    intro l i
    cases l with
    | nil => simp [digit_positions_from]
    | cons c cs =>
      have harith : i + (m + 1) = (i + 1) + m := by omega
      simp only [digit_positions_from, List.take_succ_cons]
      by_cases hd : c.isDigit
      · simp only [if_pos hd, List.filter_cons,
          show decide (((char_int c, i) : Int × Nat).2 < i + (m + 1)) = true from by
            simp only [decide_eq_true_eq]
            omega]
        simp only [harith]
        rw [ih cs (i + 1)]
        simp
      · simp only [if_neg hd, harith]
        exact ih cs (i + 1)

theorem dpf_pairwise_pos (l : List Char) :
    ∀ i, List.Pairwise (fun p q : Int × Nat => p.2 < q.2) (digit_positions_from i l) := by
  induction l with
  | nil => intro i; simp [digit_positions_from]
  | cons c cs ih =>
    intro i
    simp only [digit_positions_from]
    split_ifs with hd
    · rw [List.pairwise_cons]
      refine ⟨?_, ih (i + 1)⟩
      intro q hq
      have := digit_positions_from_bounds cs (i + 1) q hq
      simp only []
      omega
    · exact ih (i + 1)

/-- The per-line computation of `solve_part1` (`src/Day3/day3.py`, lines
50-74).  `none` models the `ValueError` raised by `max` on an empty
sequence; `some 0` covers the branches where the guard
`max_value != -1 and second_max != -1` fails and the line contributes
nothing.  `int(str(max_value) + str(second_max))` for one-digit values is
`10 * max_value + second_max`. -/
def solve_part1_line (line : List Char) : Option Int :=
  let digits := line_digits line
  if digits.isEmpty then some 0
  else
    match pyMax digits.dropLast with
    | none => none
    | some max_value =>
      match py_index (str_digit max_value) line with
      | none => none
      | some max_position =>
        match pyMax (line_digits (line.drop (max_position + 1))) with
        | none => some 0
        | some second_max => some (10 * max_value + second_max)

/-- Embedding of `solve_part1` (`src/Day3/day3.py`, lines 38-76), summing the
per-line values and propagating any exception. -/
def solve_part1 (data : List (List Char)) : Option Int :=
  data.foldlM (fun total line => (solve_part1_line line).map (total + ·)) (0 : Int)

/-- The per-line computation of `solve_part1_optimized` (`src/Day3/day3.py`,
lines 93-117). -/
def solve_part1_optimized_line (line : List Char) : Option Int :=
  let dps := digit_positions line
  match pyMaxByFst dps.dropLast with
  | none => none
  | some md =>
    match pyMax ((dps.filter fun p => decide (md.2 < p.2)).map (·.1)) with
    | none => some 0
    | some second_max => some (md.1 * 10 + second_max)

/-- Embedding of `solve_part1_optimized` (`src/Day3/day3.py`, lines 79-117). -/
def solve_part1_optimized (data : List (List Char)) : Option Int :=
  data.foldlM (fun total line => (solve_part1_optimized_line line).map (total + ·)) (0 : Int)

theorem part1_line_eq (line : List Char) (h2 : 2 ≤ (line_digits line).length) :
    solve_part1_line line = solve_part1_optimized_line line := by
  have hmap : (digit_positions line).map (·.1) = line_digits line :=
    digit_positions_from_map_fst line 0
  have hlen : (digit_positions line).length = (line_digits line).length := by
    rw [← hmap, List.length_map]
  have havmap : (digit_positions line).dropLast.map (·.1) = (line_digits line).dropLast := by
    rw [List.map_dropLast, hmap]
  have havlen : 1 ≤ (digit_positions line).dropLast.length := by
    rw [List.length_dropLast]
    omega
  obtain ⟨x, xs, hav⟩ : ∃ x xs, (digit_positions line).dropLast = x :: xs := by
    cases hc : (digit_positions line).dropLast with
    | nil => rw [hc] at havlen; simp at havlen
    | cons x xs => exact ⟨x, xs, rfl⟩
  set m := xs.foldl (fun best y => if best.1 < y.1 then y else best) x with hm
  have hbyfst : pyMaxByFst (digit_positions line).dropLast = some m := by
    rw [hav]; rfl
  have hmem_av : m ∈ (digit_positions line).dropLast := by
    obtain ⟨pre, post, hsplit, _⟩ := foldl_byfst_split xs x
    rw [hav, hsplit]
    exact List.mem_append.mpr (Or.inr (List.mem_cons_self _ _))
  have hmem_dps : m ∈ digit_positions line := List.dropLast_subset _ hmem_av
  have hm09 : 0 ≤ m.1 ∧ m.1 ≤ 9 := digit_positions_from_char line 0 m hmem_dps
  have hmax_eq : pyMax (line_digits line).dropLast = some m.1 := by
    rw [← havmap, hav, List.map_cons, pyMax]
    rw [hm, foldl_byfst_fst]
  have hdps_ne : digit_positions line ≠ [] := by
    intro hnil
    rw [hnil] at hlen
    simp at hlen
    omega
  have hidx : py_index (str_digit m.1) line = some m.2 := by
    have hff : find_first_fst m.1 (digit_positions line) = some m.2 := by
      obtain ⟨pre, post, hsplit, hlt⟩ := foldl_byfst_split xs x
      rw [← hav] at hsplit
      have hgl := List.dropLast_append_getLast hdps_ne
      rw [← hgl, hsplit, List.append_assoc, List.cons_append]
      refine find_first_fst_append pre m _ (fun p hp => ?_) rfl
      have hplt := hlt p hp
      rw [← hm] at hplt
      omega
    have hpe := py_index_eq_find_first hm09.1 hm09.2 line 0
    rw [← digit_positions, hff] at hpe
    cases hpi : py_index (str_digit m.1) line with
    | none => rw [hpi] at hpe; simp at hpe
    | some j =>
      rw [hpi] at hpe
      simp at hpe
      rw [show j = m.2 from by omega]
  have hrem : line_digits (line.drop (m.2 + 1)) =
      ((digit_positions line).filter fun p => decide (m.2 < p.2)).map (·.1) := by
    have hfg := dpf_filter_ge (m.2 + 1) line 0
    rw [← digit_positions] at hfg
    have hcongr : ((digit_positions line).filter fun p => decide (m.2 < p.2)) =
        ((digit_positions line).filter fun p => decide (0 + (m.2 + 1) ≤ p.2)) :=
      List.filter_congr fun p _ => decide_eq_decide.mpr (by omega)
    rw [hcongr, hfg]
    rw [digit_positions_from_map_fst]
  have hne : (line_digits line).isEmpty = false := by
    cases hc : line_digits line with
    | nil => rw [hc] at h2; simp at h2
    | cons a as => rfl
  simp only [solve_part1_line, solve_part1_optimized_line, hne, Bool.false_eq_true,
    if_false, hmax_eq, hbyfst, hidx, ← hrem]
  cases pyMax (line_digits (line.drop (m.2 + 1))) with
  | none => rfl
  | some sm =>
    simp only [Option.some.injEq]
    ring

/-- C7: when every line has at least two digit characters, `solve_part1` and
`solve_part1_optimized` agree. -/
theorem day3_solve_part1_eq_optimized (data : List (List Char))
    (h : ∀ line ∈ data, 2 ≤ (line_digits line).length) :
    solve_part1 data = solve_part1_optimized data := by
  suffices hgen : ∀ total : Int,
      data.foldlM (fun total line => (solve_part1_line line).map (total + ·)) total =
        data.foldlM (fun total line => (solve_part1_optimized_line line).map (total + ·))
          total from hgen 0
  induction data with
  | nil => intro total; rfl
  | cons line rest ih =>
    intro total
    simp only [List.foldlM_cons]
    rw [part1_line_eq line (h line (List.mem_cons_self line rest))]
    cases solve_part1_optimized_line line with
    | none => rfl
    | some v =>
      simp only [Option.map_some', Option.some_bind]
      exact ih (fun l hl => h l (List.mem_cons_of_mem line hl)) (total + v)

/-- Witness for C7 on the single line `"317"`. -/
theorem day3_solve_part1_eq_optimized_witness :
    solve_part1 [['3', '1', '7']] = solve_part1_optimized [['3', '1', '7']] :=
  day3_solve_part1_eq_optimized [['3', '1', '7']] (by decide)

/-- CPython slice semantics `l[start:stop]` (step 1): negative indices count
from the end, and both endpoints clamp to `[0, len(l)]`. -/
def py_slice (l : List Char) (start stop : Int) : List Char :=
  let n : Int := l.length
  let a : Int := if start < 0 then max 0 (n + start) else min start n
  let b : Int := if stop < 0 then max 0 (n + stop) else min stop n
  (l.take b.toNat).drop a.toNat

theorem py_slice_in_range (l : List Char) (start stop : Int)
    (h0 : 0 ≤ start) (h1 : start ≤ l.length) (h2 : 0 ≤ stop) (h3 : stop ≤ l.length) :
    py_slice l start stop = (l.take stop.toNat).drop start.toNat := by
  simp only [py_slice]
  rw [if_neg (by omega), if_neg (by omega), min_eq_left h1, min_eq_left h3]

/-- Python's `int(s)` for a string of decimal digit characters, on the digit
values. -/
def str_to_int (ds : List Int) : Int := ds.foldl (fun a d => a * 10 + d) 0

/-- The inner `for i in range(11, -1, -1)` loop of `solve_part2`
(`src/Day3/day3.py`, lines 281-291), counting the remaining iterations
(`d + 1` remaining means `i = d`); the state is `last_index` and the digit
values of the accumulated string `final_value`.  `none` models the
`ValueError` of `max` on an empty sequence or of `.index`. -/
def part2_loop (line : List Char) (length : Nat) : Nat → Int → List Int → Option (List Int)
  | 0, _, final_value => some final_value
  | d + 1, last_index, final_value =>
      let substring := py_slice line (last_index + 1) ((length : Int) - (d : Int))
      match pyMax (line_digits substring) with
      | none => none
      | some max_value =>
        match py_index (str_digit max_value) substring with
        | none => none
        | some idx =>
          part2_loop line length d ((idx : Int) + last_index + 1)
            (final_value ++ [max_value])

/-- The per-line computation of `solve_part2` (`src/Day3/day3.py`,
lines 278-293). -/
def solve_part2_line (line : List Char) : Option Int :=
  (part2_loop line line.length 12 (-1) []).map str_to_int

/-- Embedding of `solve_part2` (`src/Day3/day3.py`, lines 267-295). -/
def solve_part2 (data : List (List Char)) : Option Int :=
  data.foldlM (fun result line => (solve_part2_line line).map (result + ·)) (0 : Int)

/-- The inner `for digit, pos in digit_positions: ... break` search of
`solve_part2_optimized` (lines 166-169): the first recorded position in the
window carrying the chosen digit. -/
def find_pos (m last_index end_pos : Int) : List (Int × Nat) → Option Nat
  | [] => none
  | p :: ps =>
      if p.1 = m ∧ last_index < (p.2 : Int) ∧ (p.2 : Int) < end_pos then some p.2
      else find_pos m last_index end_pos ps

/-- The `for i in range(11, -1, -1)` loop of `solve_part2_optimized`
(`src/Day3/day3.py`, lines 150-173), with its `continue` and `break`
branches. -/
def part2_opt_loop (dps : List (Int × Nat)) (length : Nat) :
    Nat → Int → List Int → List Int
  | 0, _, final_digits => final_digits
  | d + 1, last_index, final_digits =>
      let end_pos : Int := (length : Int) - (d : Int)
      if end_pos ≤ last_index + 1 then
        part2_opt_loop dps length d last_index final_digits
      else
        match pyMax ((dps.filter fun p =>
            decide (last_index < (p.2 : Int) ∧ (p.2 : Int) < end_pos)).map (·.1)) with
        | none => final_digits
        | some max_digit =>
          let next_index : Int :=
            match find_pos max_digit last_index end_pos dps with
            | some pos => (pos : Int)
            | none => last_index
          part2_opt_loop dps length d next_index (final_digits ++ [max_digit])

/-- The per-line computation of `solve_part2_optimized` (`src/Day3/day3.py`,
lines 137-181). -/
def solve_part2_optimized_line (line : List Char) : Int :=
  let final_digits := part2_opt_loop (digit_positions line) line.length 12 (-1) []
  if final_digits.isEmpty then 0 else str_to_int final_digits

/-- Embedding of `solve_part2_optimized` (`src/Day3/day3.py`, lines 120-182). -/
def solve_part2_optimized (data : List (List Char)) : Int :=
  data.foldl (fun result line => result + solve_part2_optimized_line line) 0

theorem py_index_lt_length {c : Char} : ∀ {l : List Char} {i : Nat},
    py_index c l = some i → i < l.length := by
  intro l
  induction l with
  | nil => intro i h; simp [py_index] at h
  | cons x xs ih =>
    intro i h
    simp only [py_index] at h
    split_ifs at h with hx
    · simp only [Option.some.injEq] at h
      rw [← h]
      simp
    · cases hp : py_index c xs with
      | none => rw [hp] at h; simp at h
      | some j =>
        rw [hp] at h
        simp only [Option.map_some'] at h
        have := ih hp
        simp only [Option.some.injEq] at h
        simp only [List.length_cons]
        omega

theorem find_pos_eq_find_first (m li ep : Int) : ∀ dps : List (Int × Nat),
    find_pos m li ep dps =
      find_first_fst m (dps.filter fun p => decide (li < (p.2 : Int) ∧ (p.2 : Int) < ep)) := by
  intro dps
  induction dps with
  | nil => simp [find_pos, find_first_fst]
  | cons p ps ih =>
    simp only [find_pos, List.filter_cons]
    split_ifs with h1 h2 h2
    · simp only [find_first_fst, if_pos h1.1]
    · exact absurd (decide_eq_true h1.2) h2
    · have hm : ¬(p.1 = m) := fun hpm => h1 ⟨hpm, of_decide_eq_true h2⟩
      simp only [find_first_fst, if_neg hm]
      exact ih
    · exact ih

theorem part2_loop_length (line : List Char) (length : Nat) :
    ∀ (d : Nat) (li : Int) (acc out : List Int),
      part2_loop line length d li acc = some out → out.length = acc.length + d := by
  intro d
  induction d with
  | zero =>
    intro li acc out h
    simp only [part2_loop, Option.some.injEq] at h
    rw [← h]
    simp
  | succ d ih =>
    intro li acc out h
    cases hm : pyMax (line_digits (py_slice line (li + 1) ((length : Int) - (d : Int)))) with
    | none =>
      simp only [part2_loop, hm] at h
      exact Option.noConfusion h
    | some mv =>
      cases hi : py_index (str_digit mv)
          (py_slice line (li + 1) ((length : Int) - (d : Int))) with
      | none =>
        simp only [part2_loop, hm, hi] at h
        exact Option.noConfusion h
      | some idx =>
        simp only [part2_loop, hm, hi] at h
        have := ih ((idx : Int) + li + 1) (acc ++ [mv]) out h
        simp only [List.length_append, List.length_cons, List.length_nil] at this
        omega

theorem py_index_isSome {c : Char} : ∀ {l : List Char}, c ∈ l → ∃ i, py_index c l = some i := by
  intro l
  induction l with
  | nil => intro h; simp at h
  | cons x xs ih =>
    intro h
    by_cases hx : x = c
    · exact ⟨0, by simp [py_index, hx]⟩
    · rcases List.mem_cons.mp h with rfl | h
      · exact absurd rfl hx
      · obtain ⟨i, hi⟩ := ih h
        exact ⟨i + 1, by simp [py_index, hx, hi]⟩

theorem part2_loops_agree (line : List Char) (hall : ∀ c ∈ line, c.isDigit = true) :
    ∀ (d : Nat) (li : Int) (acc : List Int),
      d ≤ line.length → -1 ≤ li → li ≤ (line.length : Int) - (d : Int) - 1 →
      part2_loop line line.length d li acc =
        some (part2_opt_loop (digit_positions line) line.length d li acc) := by
  intro d
  induction d with
  | zero => intro li acc _ _ _; rfl
  | succ d ih =>
    intro li acc hd hli0 hli1
    have hdn : d + 1 ≤ line.length := hd
    set n := line.length with hn
    set k : Nat := (li + 1).toNat with hkdef
    have hk : (k : Int) = li + 1 := Int.toNat_of_nonneg (by omega)
    have hkb : k ≤ n - d - 1 := by omega
    have hsub : py_slice line (li + 1) ((n : Int) - (d : Int)) =
        (line.drop k).take (n - d - k) := by
      rw [py_slice_in_range line _ _ (by omega) (by omega) (by omega) (by omega)]
      rw [show ((n : Int) - (d : Int)).toNat = n - d from by omega,
        show (li + 1).toNat = k from rfl, List.drop_take]
    set sub := py_slice line (li + 1) ((n : Int) - (d : Int)) with hsubdef
    have hsall : ∀ c ∈ sub, c.isDigit = true := by
      intro c hc
      rw [hsub] at hc
      exact hall c (List.drop_subset k line (List.take_subset _ _ hc))
    have hdigits : line_digits sub = sub.map char_int := by
      rw [line_digits, List.filter_eq_self.mpr hsall]
    have hslen : sub.length = n - d - k := by
      rw [hsub, List.length_take, List.length_drop]
      omega
    have hsne : sub ≠ [] := by
      intro hnil
      rw [hnil] at hslen
      simp at hslen
      omega
    obtain ⟨mv, hmv⟩ : ∃ m, pyMax (line_digits sub) = some m := by
      apply pyMax_isSome
      rw [hdigits]
      simp only [ne_eq, List.map_eq_nil_iff]
      exact hsne
    obtain ⟨cv, hcv_mem, hcv⟩ : ∃ c ∈ sub, char_int c = mv := by
      have hmem := (pyMax_spec hmv).1
      rw [hdigits] at hmem
      exact List.mem_map.mp hmem
    have hmv09 : 0 ≤ mv ∧ mv ≤ 9 := by
      rw [← hcv]
      exact char_int_nonneg (hsall cv hcv_mem)
    obtain ⟨idx, hidx⟩ : ∃ i, py_index (str_digit mv) sub = some i := by
      apply py_index_isSome
      rw [show str_digit mv = cv from by
        rw [← hcv]
        exact str_digit_char_int (hsall cv hcv_mem)]
      exact hcv_mem
    have hidxlt : idx < sub.length := py_index_lt_length hidx
    have hwin : (digit_positions line).filter
        (fun p => decide (li < (p.2 : Int) ∧ (p.2 : Int) < (n : Int) - (d : Int))) =
        digit_positions_from k sub := by
      have hcongr : (digit_positions line).filter
          (fun p => decide (li < (p.2 : Int) ∧ (p.2 : Int) < (n : Int) - (d : Int))) =
          (digit_positions line).filter
            (fun p => decide (k ≤ p.2) && decide (p.2 < n - d)) :=
        List.filter_congr fun p _ =>
          (decide_eq_decide.mpr (by omega)).trans (Bool.decide_and _ _)
      rw [hcongr, ← List.filter_filter]
      have hlt := dpf_filter_lt (n - d) line 0
      simp only [Nat.zero_add] at hlt
      rw [← digit_positions] at hlt
      rw [hlt]
      have hge := dpf_filter_ge k (line.take (n - d)) 0
      simp only [Nat.zero_add] at hge
      rw [hge, List.drop_take, ← hsub]
    have hvalid : ((digit_positions line).filter
        (fun p => decide (li < (p.2 : Int) ∧ (p.2 : Int) < (n : Int) - (d : Int)))).map (·.1) =
        line_digits sub := by
      rw [hwin, digit_positions_from_map_fst]
    have hfp : find_pos mv li ((n : Int) - (d : Int)) (digit_positions line) =
        some (k + idx) := by
      rw [find_pos_eq_find_first, hwin, ← py_index_eq_find_first hmv09.1 hmv09.2 sub k,
        hidx]
      rfl
    have hnc : ¬((n : Int) - (d : Int) ≤ li + 1) := by omega
    have hstep_opt : part2_opt_loop (digit_positions line) n (d + 1) li acc =
        part2_opt_loop (digit_positions line) n d ((idx : Int) + li + 1) (acc ++ [mv]) := by
      simp only [part2_opt_loop, if_neg hnc, hvalid, hmv, hfp]
      rw [show ((k + idx : Nat) : Int) = (idx : Int) + li + 1 from by push_cast; omega]
    have hstep_orig : part2_loop line n (d + 1) li acc =
        part2_loop line n d ((idx : Int) + li + 1) (acc ++ [mv]) := by
      simp only [part2_loop, ← hsubdef, hmv, hidx]
    rw [hstep_orig, hstep_opt]
    exact ih ((idx : Int) + li + 1) (acc ++ [mv]) (by omega) (by omega) (by omega)

theorem part2_line_eq (line : List Char) (hall : ∀ c ∈ line, c.isDigit = true)
    (hlen : 12 ≤ line.length) :
    solve_part2_line line = some (solve_part2_optimized_line line) := by
  have hloop := part2_loops_agree line hall 12 (-1) [] (by omega) (by omega) (by omega)
  have hlen12 : (part2_opt_loop (digit_positions line) line.length 12 (-1) []).length = 12 := by
    have := part2_loop_length line line.length 12 (-1) []
      (part2_opt_loop (digit_positions line) line.length 12 (-1) []) hloop
    simpa using this
  have hne : (part2_opt_loop (digit_positions line) line.length 12 (-1) []).isEmpty = false := by
    cases hc : part2_opt_loop (digit_positions line) line.length 12 (-1) [] with
    | nil => rw [hc] at hlen12; simp at hlen12
    | cons a as => rfl
  rw [solve_part2_line, hloop, Option.map_some']
  rw [solve_part2_optimized_line]
  simp only [hne, Bool.false_eq_true, if_false]

/-- C8: when every line consists solely of digit characters and has length
at least 12, `solve_part2` and `solve_part2_optimized` return the same
total. -/
theorem day3_solve_part2_eq_optimized (data : List (List Char))
    (h : ∀ line ∈ data, (∀ c ∈ line, c.isDigit = true) ∧ 12 ≤ line.length) :
    solve_part2 data = some (solve_part2_optimized data) := by
  suffices hgen : ∀ result : Int,
      data.foldlM (fun result line => (solve_part2_line line).map (result + ·)) result =
        some (data.foldl (fun result line => result + solve_part2_optimized_line line) result)
    from hgen 0
  induction data with
  | nil => intro r; rfl
  | cons line rest ih =>
    intro r
    simp only [List.foldlM_cons, List.foldl_cons]
    rw [part2_line_eq line (h line (List.mem_cons_self line rest)).1
      (h line (List.mem_cons_self line rest)).2]
    simp only [Option.map_some', Option.some_bind]
    exact ih (fun l hl => h l (List.mem_cons_of_mem line hl))
      (r + solve_part2_optimized_line line)

/-- Witness for C8 on the single all-digit line `"123456789012"`. -/
theorem day3_solve_part2_eq_optimized_witness :
    solve_part2 [['1', '2', '3', '4', '5', '6', '7', '8', '9', '0', '1', '2']] =
      some (solve_part2_optimized
        [['1', '2', '3', '4', '5', '6', '7', '8', '9', '0', '1', '2']]) :=
  day3_solve_part2_eq_optimized
    [['1', '2', '3', '4', '5', '6', '7', '8', '9', '0', '1', '2']] (by decide)

end Day3

/-! ## Day 4 (`src/Day4/day4.py`) -/

namespace Day4

/-- A 2D grid of characters, as produced by `parse_input`. -/
abbrev Grid := List (List Char)

/-- `data[i][j]`.  Out-of-structure access defaults to a space (never `'@'`);
in-bounds accesses, the only ones the source performs on rectangular input,
agree with Python. -/
def cell (g : Grid) (i j : Nat) : Char := (g.getD i []).getD j ' '

/-- In-place assignment `data[i][j] = c` as a functional update. -/
def setCell (g : Grid) (i j : Nat) (c : Char) : Grid :=
  g.set i ((g.getD i []).set j c)

/-- The 8-neighborhood offsets of `removable_at_symbols`
(`src/Day4/day4.py`, line 83). -/
def directions : List (Int × Int) :=
  [(-1, -1), (-1, 0), (-1, 1), (0, -1), (0, 1), (1, -1), (1, 0), (1, 1)]

/-- The direction loop of `removable_at_symbols` (`src/Day4/day4.py`, lines
85-94), carrying `at_count`, with the early `return 0` once the count
reaches 4. -/
def removable_go (g : Grid) (i j rows cols : Nat) :
    List (Int × Int) → Nat → Int
  | [], _ => 1
  | (di, dj) :: rest, at_count =>
      let ni : Int := (i : Int) + di
      let nj : Int := (j : Int) + dj
      if 0 ≤ ni ∧ ni < rows ∧ 0 ≤ nj ∧ nj < cols then
        let at_count := if cell g ni.toNat nj.toNat = '@' then at_count + 1 else at_count
        if 4 ≤ at_count then 0 else removable_go g i j rows cols rest at_count
      else removable_go g i j rows cols rest at_count

/-- Embedding of `removable_at_symbols` (`src/Day4/day4.py`, lines 62-97). -/
def removable_at_symbols (g : Grid) (i j rows cols : Nat) : Int :=
  removable_go g i j rows cols directions 0

/-- The number of in-bounds `'@'` neighbors of `(i, j)`. -/
def nbCount (g : Grid) (i j rows cols : Nat) : Nat :=
  (directions.filter fun d =>
    decide (0 ≤ (i : Int) + d.1 ∧ (i : Int) + d.1 < rows ∧
      0 ≤ (j : Int) + d.2 ∧ (j : Int) + d.2 < cols ∧
      cell g ((i : Int) + d.1).toNat ((j : Int) + d.2).toNat = '@')).length

/-- The number of `'@'` cells in the grid. -/
def atCount (g : Grid) : Nat :=
  (g.map fun row => (row.filter fun c => decide (c = '@')).length).sum

theorem removable_go_spec (g : Grid) (i j rows cols : Nat) :
    ∀ (ds : List (Int × Int)) (c : Nat), c < 4 →
      removable_go g i j rows cols ds c =
        if c + (ds.filter fun d =>
            decide (0 ≤ (i : Int) + d.1 ∧ (i : Int) + d.1 < rows ∧
              0 ≤ (j : Int) + d.2 ∧ (j : Int) + d.2 < cols ∧
              cell g ((i : Int) + d.1).toNat ((j : Int) + d.2).toNat = '@')).length < 4
        then 1 else 0 := by
  intro ds
  induction ds with
  | nil =>
    intro c hc
    simp only [removable_go, List.filter_nil, List.length_nil]
    rw [if_pos (by omega)]
  | cons d rest ih =>
    intro c hc
    obtain ⟨di, dj⟩ := d
    simp only [removable_go, List.filter_cons]
    by_cases hb : 0 ≤ (i : Int) + di ∧ (i : Int) + di < rows ∧
        0 ≤ (j : Int) + dj ∧ (j : Int) + dj < cols
    · rw [if_pos hb]
      by_cases hat : cell g ((i : Int) + di).toNat ((j : Int) + dj).toNat = '@'
      · have hpred : decide (0 ≤ (i : Int) + (di, dj).1 ∧ (i : Int) + (di, dj).1 < rows ∧
            0 ≤ (j : Int) + (di, dj).2 ∧ (j : Int) + (di, dj).2 < cols ∧
            cell g ((i : Int) + (di, dj).1).toNat ((j : Int) + (di, dj).2).toNat = '@') =
            true := by
          simp only [decide_eq_true_eq]
          exact ⟨hb.1, hb.2.1, hb.2.2.1, hb.2.2.2, hat⟩
        rw [if_pos hat, hpred]
        simp only [if_true, List.length_cons]
        by_cases hc4 : 4 ≤ c + 1
        · rw [if_pos hc4, if_neg (by omega)]
        · rw [if_neg hc4, ih (c + 1) (by omega)]
          split_ifs <;> omega
      · have hpred : decide (0 ≤ (i : Int) + (di, dj).1 ∧ (i : Int) + (di, dj).1 < rows ∧
            0 ≤ (j : Int) + (di, dj).2 ∧ (j : Int) + (di, dj).2 < cols ∧
            cell g ((i : Int) + (di, dj).1).toNat ((j : Int) + (di, dj).2).toNat = '@') =
            false := by
          simp only [decide_eq_false_iff_not]
          intro hcon
          exact hat hcon.2.2.2.2
        rw [if_neg hat, hpred, if_neg (by omega), ih c hc]
        simp
    · rw [if_neg hb]
      have hpred : decide (0 ≤ (i : Int) + (di, dj).1 ∧ (i : Int) + (di, dj).1 < rows ∧
          0 ≤ (j : Int) + (di, dj).2 ∧ (j : Int) + (di, dj).2 < cols ∧
          cell g ((i : Int) + (di, dj).1).toNat ((j : Int) + (di, dj).2).toNat = '@') =
          false := by
        simp only [decide_eq_false_iff_not]
        intro hcon
        exact hb ⟨hcon.1, hcon.2.1, hcon.2.2.1, hcon.2.2.2.1⟩
      rw [hpred, ih c hc]
      simp

/-- `removable_at_symbols` returns 1 exactly when the cell has fewer than
four `'@'` neighbors, and 0 otherwise. -/
theorem removable_spec (g : Grid) (i j rows cols : Nat) :
    removable_at_symbols g i j rows cols =
      if nbCount g i j rows cols < 4 then 1 else 0 := by
  rw [removable_at_symbols, removable_go_spec g i j rows cols directions 0 (by omega)]
  simp only [Nat.zero_add, nbCount]

theorem set_of_le {α : Type _} : ∀ (l : List α) (n : Nat) (a : α),
    l.length ≤ n → l.set n a = l := by
  intro l
  induction l with
  | nil => intro n a _; rfl
  | cons x xs ih =>
    intro n a h
    cases n with
    | zero => simp at h
    | succ n =>
      rw [List.set_cons_succ, ih n a (by simpa using h)]

theorem getD_set_same {α : Type _} (l : List α) (i : Nat) (a d : α) (h : i < l.length) :
    (l.set i a).getD i d = a := by
  rw [List.getD_eq_getElem?_getD, List.getElem?_set_self h]
  rfl

theorem getD_set_other {α : Type _} (l : List α) {i j : Nat} (h : i ≠ j) (a d : α) :
    (l.set i a).getD j d = l.getD j d := by
  rw [List.getD_eq_getElem?_getD, List.getElem?_set_ne h, ← List.getD_eq_getElem?_getD]

theorem bounds_of_cell_at {g : Grid} {i j : Nat} (h : cell g i j = '@') :
    i < g.length ∧ j < (g.getD i []).length := by
  constructor
  · by_contra hi
    push_neg at hi
    rw [cell, List.getD_eq_default _ _ hi] at h
    simp [List.getD] at h
  · by_contra hj
    push_neg at hj
    rw [cell, List.getD_eq_default _ _ hj] at h
    exact absurd h (by decide)

theorem cell_setCell_same {g : Grid} {i j : Nat} (c : Char)
    (hi : i < g.length) (hj : j < (g.getD i []).length) :
    cell (setCell g i j c) i j = c := by
  rw [cell, setCell, getD_set_same g i _ [] hi, getD_set_same _ j c ' ' hj]

theorem cell_setCell_other (g : Grid) (i j : Nat) (c : Char) (a b : Nat)
    (h : ¬(a = i ∧ b = j)) : cell (setCell g i j c) a b = cell g a b := by
  by_cases hia : a = i
  · subst hia
    have hbj : j ≠ b := fun hb => h ⟨rfl, hb.symm⟩
    by_cases hlen : a < g.length
    · rw [cell, setCell, getD_set_same g a _ [] hlen, getD_set_other _ hbj, cell]
    · rw [setCell, set_of_le g a _ (by omega)]
  · rw [cell, setCell, getD_set_other g (fun he => hia he.symm), cell]

theorem length_setCell (g : Grid) (i j : Nat) (c : Char) :
    (setCell g i j c).length = g.length := List.length_set g i _

theorem rowlen_setCell (g : Grid) (i j : Nat) (c : Char) (a : Nat) :
    ((setCell g i j c).getD a []).length = (g.getD a []).length := by
  by_cases hia : i = a
  · subst hia
    by_cases hlen : i < g.length
    · rw [setCell, getD_set_same g i _ [] hlen, List.length_set]
    · rw [setCell, set_of_le g i _ (by omega)]
  · rw [setCell, getD_set_other g hia]

theorem cell_cons_zero (row : List Char) (rest : Grid) (j : Nat) :
    cell (row :: rest) 0 j = row.getD j ' ' := rfl

theorem cell_cons_succ (row : List Char) (rest : Grid) (i j : Nat) :
    cell (row :: rest) (i + 1) j = cell rest i j := rfl

theorem setCell_cons_zero (row : List Char) (rest : Grid) (j : Nat) (c : Char) :
    setCell (row :: rest) 0 j c = row.set j c :: rest := rfl

theorem setCell_cons_succ (row : List Char) (rest : Grid) (i j : Nat) (c : Char) :
    setCell (row :: rest) (i + 1) j c = row :: setCell rest i j c := rfl

theorem atCount_cons (row : List Char) (rest : Grid) :
    atCount (row :: rest) =
      (row.filter fun c => decide (c = '@')).length + atCount rest := by
  simp [atCount]

theorem rowCount_set : ∀ (r : List Char) (j : Nat), j < r.length → r.getD j ' ' = '@' →
    ((r.set j '.').filter fun c => decide (c = '@')).length + 1 =
      (r.filter fun c => decide (c = '@')).length := by
  intro r
  induction r with
  | nil => intro j hj _; simp at hj
  | cons c cs ih =>
    intro j hj hat
    cases j with
    | zero =>
      simp only [List.getD_cons_zero] at hat
      subst hat
      simp [List.set, List.filter_cons]
    | succ j =>
      simp only [List.getD_cons_succ] at hat
      have hrec := ih j (by simpa using hj) hat
      rw [List.set_cons_succ]
      cases hdec : decide (c = '@')
      · simp only [List.filter_cons, hdec, Bool.false_eq_true, if_false]
        omega
      · simp only [List.filter_cons, hdec, eq_self_iff_true, if_true, List.length_cons]
        omega

theorem atCount_setCell : ∀ (g : Grid) (i j : Nat), cell g i j = '@' →
    atCount (setCell g i j '.') + 1 = atCount g := by
  intro g
  induction g with
  | nil => intro i j h; exact absurd h (by simp [cell, List.getD])
  | cons row rest ih =>
    intro i j h
    cases i with
    | zero =>
      rw [setCell_cons_zero, atCount_cons, atCount_cons]
      have hb := (bounds_of_cell_at h).2
      simp only [List.getD_cons_zero] at hb
      have := rowCount_set row j hb h
      omega
    | succ i =>
      rw [setCell_cons_succ, atCount_cons, atCount_cons]
      have := ih i j h
      omega

/-- `g'` has `'@'` in at most the positions where `g` does. -/
def Sub (g' g : Grid) : Prop := ∀ i j, cell g' i j = '@' → cell g i j = '@'

theorem nbCount_mono {g' g : Grid} (h : Sub g' g) (i j rows cols : Nat) :
    nbCount g' i j rows cols ≤ nbCount g i j rows cols := by
  rw [nbCount, nbCount, ← List.countP_eq_length_filter, ← List.countP_eq_length_filter]
  refine List.countP_mono_left fun d _ hd => ?_
  simp only [decide_eq_true_eq] at hd ⊢
  exact ⟨hd.1, hd.2.1, hd.2.2.1, hd.2.2.2.1, h _ _ hd.2.2.2.2⟩

theorem nbCount_congr {g g' : Grid} (i j rows cols : Nat)
    (h : ∀ d ∈ directions,
      cell g' ((i : Int) + d.1).toNat ((j : Int) + d.2).toNat =
        cell g ((i : Int) + d.1).toNat ((j : Int) + d.2).toNat) :
    nbCount g' i j rows cols = nbCount g i j rows cols := by
  rw [nbCount, nbCount]
  congr 1
  refine List.filter_congr fun d hd => ?_
  rw [h d hd]

/-- One removal step: an in-bounds `'@'` cell with fewer than four `'@'`
neighbors is set to `'.'`. -/
inductive Step (rows cols : Nat) : Grid → Grid → Prop
  | mk (g : Grid) (i j : Nat) (hi : i < rows) (hj : j < cols)
      (hat : cell g i j = '@') (hrem : nbCount g i j rows cols < 4) :
      Step rows cols g (setCell g i j '.')

/-- `n` removal steps. -/
inductive StepsN (rows cols : Nat) : Nat → Grid → Grid → Prop
  | refl (g : Grid) : StepsN rows cols 0 g g
  | head {g g' g'' : Grid} {n : Nat} :
      Step rows cols g g' → StepsN rows cols n g' g'' → StepsN rows cols (n + 1) g g''

theorem stepsN_trans {rows cols : Nat} : ∀ {m n : Nat} {g g' g'' : Grid},
    StepsN rows cols m g g' → StepsN rows cols n g' g'' →
    StepsN rows cols (m + n) g g'' := by
  intro m n g g' g'' h1 h2
  induction h1 with
  | refl g => simpa using h2
  | head s _ ih =>
    rw [Nat.succ_add]
    exact StepsN.head s (ih h2)

theorem step_atCount {rows cols : Nat} {g g' : Grid} (h : Step rows cols g g') :
    atCount g' + 1 = atCount g := by
  cases h with
  | mk i j hi hj hat hrem => exact atCount_setCell g i j hat

theorem stepsN_atCount {rows cols : Nat} {n : Nat} {g g' : Grid}
    (h : StepsN rows cols n g g') : atCount g' + n = atCount g := by
  induction h with
  | refl g => rfl
  | head s _ ih =>
    have := step_atCount s
    omega

theorem step_sub {rows cols : Nat} {g g' : Grid} (h : Step rows cols g g') : Sub g' g := by
  cases h with
  | mk i j hi hj hat hrem =>
    intro a b hab
    by_cases he : a = i ∧ b = j
    · obtain ⟨rfl, rfl⟩ := he
      have hb := bounds_of_cell_at hat
      rw [cell_setCell_same '.' hb.1 hb.2] at hab
      exact absurd hab (by decide)
    · rw [cell_setCell_other g i j _ a b he] at hab
      exact hab

theorem stepsN_sub {rows cols : Nat} : ∀ {n : Nat} {g g' : Grid},
    StepsN rows cols n g g' → Sub g' g := by
  intro n g g' h
  induction h with
  | refl g => exact fun i j hij => hij
  | head s _ ih => exact fun i j hij => step_sub s i j (ih i j hij)

/-- Equality of grid shapes: same number of rows and same row lengths. -/
def SameShape (g g' : Grid) : Prop :=
  g.length = g'.length ∧ ∀ a, (g.getD a []).length = ((g'.getD a []).length)

theorem step_shape {rows cols : Nat} {g g' : Grid} (h : Step rows cols g g') :
    SameShape g g' := by
  cases h with
  | mk i j hi hj hat hrem =>
    exact ⟨(length_setCell g i j '.').symm, fun a => (rowlen_setCell g i j '.' a).symm⟩

theorem stepsN_shape {rows cols : Nat} : ∀ {n : Nat} {g g' : Grid},
    StepsN rows cols n g g' → SameShape g g' := by
  intro n g g' h
  induction h with
  | refl g => exact ⟨rfl, fun _ => rfl⟩
  | head s _ ih =>
    have h1 := step_shape s
    exact ⟨h1.1.trans ih.1, fun a => (h1.2 a).trans (ih.2 a)⟩

theorem rowCount_congr : ∀ (r r' : List Char), r.length = r'.length →
    (∀ j, r.getD j ' ' = '@' ↔ r'.getD j ' ' = '@') →
    (r.filter fun c => decide (c = '@')).length =
      (r'.filter fun c => decide (c = '@')).length := by
  intro r
  induction r with
  | nil =>
    intro r' hl _
    cases r' with
    | nil => rfl
    | cons c cs => simp at hl
  | cons c cs ih =>
    intro r' hl hp
    cases r' with
    | nil => simp at hl
    | cons c' cs' =>
      have hhead : (c = '@') ↔ (c' = '@') := by
        have := hp 0
        simpa using this
      have htail := ih cs' (by simpa using hl) fun j => by
        have := hp (j + 1)
        simpa using this
      by_cases hc : c = '@'
      · have hc' : c' = '@' := hhead.mp hc
        simp [List.filter_cons, hc, hc', htail]
      · have hc' : ¬(c' = '@') := fun h => hc (hhead.mpr h)
        simp [List.filter_cons, hc, hc', htail]

theorem atCount_congr : ∀ (g g' : Grid), g.length = g'.length →
    (∀ a, (g.getD a []).length = (g'.getD a []).length) →
    (∀ i j, cell g i j = '@' ↔ cell g' i j = '@') →
    atCount g = atCount g' := by
  intro g
  induction g with
  | nil =>
    intro g' hl _ _
    cases g' with
    | nil => rfl
    | cons r rs => simp at hl
  | cons row rest ih =>
    intro g' hl hr hc
    cases g' with
    | nil => simp at hl
    | cons row' rest' =>
      rw [atCount_cons, atCount_cons]
      have h1 : (row.filter fun c => decide (c = '@')).length =
          (row'.filter fun c => decide (c = '@')).length := by
        refine rowCount_congr row row' ?_ fun j => ?_
        · have := hr 0
          simpa using this
        · exact hc 0 j
      have h2 := ih rest' (by simpa using hl)
        (fun a => by have := hr (a + 1); simpa using this)
        (fun i j => hc (i + 1) j)
      omega

/-- No in-bounds `'@'` cell is removable: the grid is a fixed point of the
removal process. -/
def NoRemovable (g : Grid) (rows cols : Nat) : Prop :=
  ∀ i j, i < rows → j < cols → cell g i j = '@' → 4 ≤ nbCount g i j rows cols

theorem sub_preserved {rows cols : Nat} {gf g g' : Grid}
    (hnf : NoRemovable gf rows cols) (hsub : Sub gf g)
    (hstep : Step rows cols g g') : Sub gf g' := by
  cases hstep with
  | mk i j hi hj hat hrem =>
    intro a b hab
    by_cases he : a = i ∧ b = j
    · obtain ⟨rfl, rfl⟩ := he
      exfalso
      have h4 := hnf a b hi hj hab
      have hle := nbCount_mono hsub a b rows cols
      omega
    · rw [cell_setCell_other g i j _ a b he]
      exact hsub a b hab

theorem sub_along {rows cols : Nat} {gf : Grid} (hnf : NoRemovable gf rows cols) :
    ∀ {n : Nat} {g g' : Grid}, Sub gf g → StepsN rows cols n g g' → Sub gf g' := by
  intro n g g' hsub h
  induction h with
  | refl g => exact hsub
  | head s rest ih => exact ih (sub_preserved hnf hsub s)

/-- Any two removal-to-fixed-point runs from the same grid remove the same
number of cells. -/
theorem normal_forms_count {rows cols : Nat} {g0 gf gf' : Grid} {n m : Nat}
    (h1 : StepsN rows cols n g0 gf) (hn1 : NoRemovable gf rows cols)
    (h2 : StepsN rows cols m g0 gf') (hn2 : NoRemovable gf' rows cols) : n = m := by
  have hsub1 : Sub gf gf' := sub_along hn1 (stepsN_sub h1) h2
  have hsub2 : Sub gf' gf := sub_along hn2 (stepsN_sub h2) h1
  have hsh1 := stepsN_shape h1
  have hsh2 := stepsN_shape h2
  have hcount : atCount gf = atCount gf' := by
    refine atCount_congr gf gf' ?_ ?_ ?_
    · rw [← hsh1.1, ← hsh2.1]
    · intro a
      rw [← hsh1.2 a, ← hsh2.2 a]
    · intro i j
      exact ⟨fun h => hsub1 i j h, fun h => hsub2 i j h⟩
  have hc1 := stepsN_atCount h1
  have hc2 := stepsN_atCount h2
  omega

/-- The row-major cell order of the nested `for i in range(rows): for j in
range(cols)` scans. -/
def cellIndices (rows cols : Nat) : List (Nat × Nat) :=
  (List.range rows).flatMap fun i => (List.range cols).map fun j => (i, j)

theorem mem_cellIndices {rows cols : Nat} {ij : Nat × Nat} :
    ij ∈ cellIndices rows cols ↔ ij.1 < rows ∧ ij.2 < cols := by
  obtain ⟨i, j⟩ := ij
  simp only [cellIndices, List.mem_flatMap, List.mem_map, List.mem_range]
  constructor
  · rintro ⟨a, ha, b, hb, heq⟩
    cases heq
    exact ⟨ha, hb⟩
  · rintro ⟨hi, hj⟩
    exact ⟨i, hi, j, hj, rfl⟩

/-- The body of the cell scan in `solve_part2` (`src/Day4/day4.py`, lines
117-126): skip non-`'@'` cells, otherwise test removability, remove on
success, and add `item_result` to `pass_result`. -/
def pass_body (rows cols : Nat) (s : Grid × Int) (ij : Nat × Nat) : Grid × Int :=
  if cell s.1 ij.1 ij.2 ≠ '@' then s
  else
    let item_result := removable_at_symbols s.1 ij.1 ij.2 rows cols
    (if item_result ≠ 0 then setCell s.1 ij.1 ij.2 '.' else s.1, s.2 + item_result)

/-- One pass of the `while` loop of `solve_part2`: scan every cell in
row-major order, removing as it goes, and return the mutated grid with the
pass count. -/
def pass_once (rows cols : Nat) (g : Grid) : Grid × Int :=
  (cellIndices rows cols).foldl (pass_body rows cols) (g, 0)

theorem pass_body_not_at (rows cols : Nat) (g : Grid) (c : Int) (i j : Nat)
    (h : ¬cell g i j = '@') : pass_body rows cols (g, c) (i, j) = (g, c) := by
  simp [pass_body, h]

theorem pass_body_rem (rows cols : Nat) (g : Grid) (c : Int) (i j : Nat)
    (hat : cell g i j = '@') (hrem : nbCount g i j rows cols < 4) :
    pass_body rows cols (g, c) (i, j) = (setCell g i j '.', c + 1) := by
  simp only [pass_body, removable_spec]
  rw [if_neg (not_not_intro hat), if_pos hrem]
  norm_num

theorem pass_body_norem (rows cols : Nat) (g : Grid) (c : Int) (i j : Nat)
    (hat : cell g i j = '@') (hrem : ¬nbCount g i j rows cols < 4) :
    pass_body rows cols (g, c) (i, j) = (g, c) := by
  simp only [pass_body, removable_spec]
  rw [if_neg (not_not_intro hat), if_neg hrem]
  norm_num

theorem pass_fold_spec (rows cols : Nat) : ∀ (ids : List (Nat × Nat)) (g : Grid) (c : Int),
    (∀ ij ∈ ids, ij.1 < rows ∧ ij.2 < cols) →
    ∃ n : Nat,
      StepsN rows cols n g (ids.foldl (pass_body rows cols) (g, c)).1 ∧
      (ids.foldl (pass_body rows cols) (g, c)).2 = c + n := by
  intro ids
  induction ids with
  | nil => intro g c _; exact ⟨0, StepsN.refl g, by simp⟩
  | cons ij rest ih =>
    intro g c hb
    obtain ⟨i, j⟩ := ij
    have hbij := hb (i, j) (List.mem_cons_self _ _)
    have hbt : ∀ p ∈ rest, p.1 < rows ∧ p.2 < cols :=
      fun p hp => hb p (List.mem_cons_of_mem _ hp)
    simp only [List.foldl_cons]
    by_cases hat : cell g i j = '@'
    · by_cases hrem : nbCount g i j rows cols < 4
      · rw [pass_body_rem rows cols g c i j hat hrem]
        obtain ⟨n, hs, hc⟩ := ih (setCell g i j '.') (c + 1) hbt
        refine ⟨n + 1, ?_, ?_⟩
        · exact StepsN.head (Step.mk g i j hbij.1 hbij.2 hat hrem) hs
        · rw [hc]
          push_cast
          ring
      · rw [pass_body_norem rows cols g c i j hat hrem]
        exact ih g c hbt
    · rw [pass_body_not_at rows cols g c i j hat]
      exact ih g c hbt

theorem pass_fold_zero (rows cols : Nat) : ∀ (ids : List (Nat × Nat)) (g : Grid) (c : Int),
    (∀ ij ∈ ids, ij.1 < rows ∧ ij.2 < cols) →
    (ids.foldl (pass_body rows cols) (g, c)).2 = c →
    (ids.foldl (pass_body rows cols) (g, c)).1 = g ∧
      ∀ ij ∈ ids, cell g ij.1 ij.2 = '@' → 4 ≤ nbCount g ij.1 ij.2 rows cols := by
  intro ids
  induction ids with
  | nil => intro g c _ _; exact ⟨rfl, by simp⟩
  | cons ij rest ih =>
    intro g c hb hz
    obtain ⟨i, j⟩ := ij
    have hbt : ∀ p ∈ rest, p.1 < rows ∧ p.2 < cols :=
      fun p hp => hb p (List.mem_cons_of_mem _ hp)
    by_cases hat : cell g i j = '@'
    · by_cases hrem : nbCount g i j rows cols < 4
      · exfalso
        rw [List.foldl_cons, pass_body_rem rows cols g c i j hat hrem] at hz
        obtain ⟨n, _, hc⟩ := pass_fold_spec rows cols rest (setCell g i j '.') (c + 1) hbt
        rw [hc] at hz
        omega
      · rw [List.foldl_cons, pass_body_norem rows cols g c i j hat hrem] at hz ⊢
        obtain ⟨h1, h2⟩ := ih g c hbt hz
        refine ⟨h1, fun p hp hpat => ?_⟩
        rcases List.mem_cons.mp hp with rfl | hp
        · exact le_of_not_lt hrem
        · exact h2 p hp hpat
    · rw [List.foldl_cons, pass_body_not_at rows cols g c i j hat] at hz ⊢
      obtain ⟨h1, h2⟩ := ih g c hbt hz
      refine ⟨h1, fun p hp hpat => ?_⟩
      rcases List.mem_cons.mp hp with rfl | hp
      · exact absurd hpat hat
      · exact h2 p hp hpat

/-- The `while pass_result != 0` loop of `solve_part2` (`src/Day4/day4.py`,
lines 114-128), with fuel; `atCount g + 1` passes always suffice, since
every pass except the last removes at least one cell. -/
def part2_loop (rows cols : Nat) : Nat → Grid → Int × Grid
  | 0, g => (0, g)
  | fuel + 1, g =>
      let p := pass_once rows cols g
      if p.2 = 0 then (0, p.1)
      else
        let r := part2_loop rows cols fuel p.1
        (p.2 + r.1, r.2)

/-- Embedding of `solve_part2` (`src/Day4/day4.py`, lines 100-130), paired
with the final state of the mutated grid argument. -/
def solve_part2_run (data : Grid) : Int × Grid :=
  if data.isEmpty then (0, data)
  else part2_loop data.length (data.headD []).length (atCount data + 1) data

/-- The return value of `solve_part2`. -/
def solve_part2 (data : Grid) : Int := (solve_part2_run data).1

theorem pass_once_spec (rows cols : Nat) (g : Grid) :
    ∃ n : Nat, StepsN rows cols n g (pass_once rows cols g).1 ∧
      (pass_once rows cols g).2 = (n : Int) := by
  obtain ⟨n, hs, hc⟩ := pass_fold_spec rows cols (cellIndices rows cols) g 0
    (fun ij hij => mem_cellIndices.mp hij)
  exact ⟨n, hs, by rw [pass_once, hc]; ring⟩

theorem pass_once_zero (rows cols : Nat) (g : Grid)
    (hz : (pass_once rows cols g).2 = 0) :
    (pass_once rows cols g).1 = g ∧ NoRemovable g rows cols := by
  obtain ⟨h1, h2⟩ := pass_fold_zero rows cols (cellIndices rows cols) g 0
    (fun ij hij => mem_cellIndices.mp hij) hz
  refine ⟨h1, fun i j hi hj hat => ?_⟩
  exact h2 (i, j) (mem_cellIndices.mpr ⟨hi, hj⟩) hat

theorem part2_loop_spec (rows cols : Nat) : ∀ (fuel : Nat) (g : Grid), atCount g < fuel →
    ∃ (n : Nat) (gf : Grid),
      part2_loop rows cols fuel g = ((n : Int), gf) ∧
      StepsN rows cols n g gf ∧ NoRemovable gf rows cols := by
  intro fuel
  induction fuel with
  | zero => intro g h; omega
  | succ fuel ih =>
    intro g hg
    obtain ⟨n1, hs1, hc1⟩ := pass_once_spec rows cols g
    by_cases hz : (pass_once rows cols g).2 = 0
    · obtain ⟨hgeq, hnr⟩ := pass_once_zero rows cols g hz
      refine ⟨0, (pass_once rows cols g).1, ?_, ?_, ?_⟩
      · simp [part2_loop, hz]
      · rw [hgeq]
        exact StepsN.refl g
      · rw [hgeq]
        exact hnr
    · have hn1pos : 1 ≤ n1 := by
        by_contra hcon
        push_neg at hcon
        interval_cases n1
        exact hz (by rw [hc1]; rfl)
      have hdec : atCount (pass_once rows cols g).1 < fuel := by
        have := stepsN_atCount hs1
        omega
      obtain ⟨n2, gf, heq2, hs2, hnr2⟩ := ih (pass_once rows cols g).1 hdec
      refine ⟨n1 + n2, gf, ?_, stepsN_trans hs1 hs2, hnr2⟩
      simp only [part2_loop, if_neg hz, heq2]
      rw [hc1]
      refine Prod.ext ?_ rfl
      push_cast
      ring

/-- `solve_part2` on a nonempty grid performs a maximal sequence of removal
steps: its result counts the steps and the final mutated grid is a fixed
point. -/
theorem solve_part2_run_spec (data : Grid) (hne : ¬data.isEmpty = true) :
    ∃ (n : Nat) (gf : Grid),
      solve_part2_run data = ((n : Int), gf) ∧
      StepsN data.length (data.headD []).length n data gf ∧
      NoRemovable gf data.length (data.headD []).length := by
  rw [solve_part2_run, if_neg hne]
  exact part2_loop_spec data.length (data.headD []).length (atCount data + 1) data
    (by omega)

/-- The grid is rectangular: every row has the first row's length. -/
def Rect (data : Grid) : Prop := ∀ row ∈ data, row.length = (data.headD []).length

theorem pass_fold_norem (rows cols : Nat) : ∀ (ids : List (Nat × Nat)) (g : Grid) (c : Int),
    (∀ ij ∈ ids, ij.1 < rows ∧ ij.2 < cols) → NoRemovable g rows cols →
    ids.foldl (pass_body rows cols) (g, c) = (g, c) := by
  intro ids
  induction ids with
  | nil => intro g c _ _; rfl
  | cons ij rest ih =>
    intro g c hb hnr
    obtain ⟨i, j⟩ := ij
    have hbij := hb (i, j) (List.mem_cons_self _ _)
    have hbt : ∀ p ∈ rest, p.1 < rows ∧ p.2 < cols :=
      fun p hp => hb p (List.mem_cons_of_mem _ hp)
    rw [List.foldl_cons]
    by_cases hat : cell g i j = '@'
    · rw [pass_body_norem rows cols g c i j hat
        (not_lt_of_le (hnr i j hbij.1 hbij.2 hat))]
      exact ih g c hbt hnr
    · rw [pass_body_not_at rows cols g c i j hat]
      exact ih g c hbt hnr

theorem pass_once_of_norem (rows cols : Nat) (g : Grid)
    (hnr : NoRemovable g rows cols) : pass_once rows cols g = (g, 0) :=
  pass_fold_norem rows cols (cellIndices rows cols) g 0
    (fun ij hij => mem_cellIndices.mp hij) hnr

/-- C4: `solve_part2`'s outer loop terminates: every pass except the last
strictly decreases the number of `'@'` cells, and consequently `atCount g + 1`
iterations of the loop body always reach the exit condition (a pass that
removes nothing). -/
theorem day4_solve_part2_terminates (rows cols : Nat) :
    (∀ g : Grid, (pass_once rows cols g).2 ≠ 0 →
      atCount (pass_once rows cols g).1 < atCount g) ∧
    (∀ g : Grid, ∃ (n : Nat) (gf : Grid),
      part2_loop rows cols (atCount g + 1) g = ((n : Int), gf) ∧
      (pass_once rows cols gf).2 = 0) := by
  constructor
  · intro g hz
    obtain ⟨n, hs, hc⟩ := pass_once_spec rows cols g
    have hn : n ≠ 0 := by
      intro h0
      rw [h0] at hc
      exact hz (by rw [hc]; rfl)
    have := stepsN_atCount hs
    omega
  · intro g
    obtain ⟨n, gf, heq, _, hnr⟩ := part2_loop_spec rows cols (atCount g + 1) g (by omega)
    exact ⟨n, gf, heq, by rw [pass_once_of_norem rows cols gf hnr]⟩

/-- Witness for C4 at the one-cell grid `[['@']]`. -/
theorem day4_solve_part2_terminates_witness :
    atCount (pass_once 1 1 [['@']]).1 < atCount [['@']] :=
  (day4_solve_part2_terminates 1 1).1 [['@']] (by decide)

/-- C5: for a rectangular grid, when `solve_part2` returns, the mutated grid
is a fixed point — no remaining `'@'` cell has fewer than four `'@'`
neighbors — and the result is the initial `'@'` count minus the final one. -/
theorem day4_solve_part2_fixed_point (data : Grid) (hrect : Rect data) :
    NoRemovable (solve_part2_run data).2 data.length (data.headD []).length ∧
    solve_part2 data =
      (atCount data : Int) - (atCount (solve_part2_run data).2 : Int) := by
  clear hrect
  by_cases hne : data.isEmpty = true
  · have hd : data = [] := by
      cases data with
      | nil => rfl
      | cons r rs => simp at hne
    subst hd
    refine ⟨fun i j hi _ _ => ?_, rfl⟩
    simp at hi
  · obtain ⟨n, gf, heq, hs, hnr⟩ := solve_part2_run_spec data hne
    have hcnt := stepsN_atCount hs
    rw [solve_part2, heq]
    refine ⟨hnr, ?_⟩
    show (n : Int) = (atCount data : Int) - (atCount gf : Int)
    omega

/-- Witness for C5 at the rectangular grid `[['@']]`. -/
theorem day4_solve_part2_fixed_point_witness :
    NoRemovable (solve_part2_run [['@']]).2 [['@']].length ([['@']].headD []).length ∧
    solve_part2 [['@']] =
      (atCount [['@']] : Int) - (atCount (solve_part2_run [['@']]).2 : Int) :=
  day4_solve_part2_fixed_point [['@']]
    (by intro row hrow; rcases List.mem_singleton.mp hrow with rfl; rfl)

theorem step_mutation {rows cols : Nat} {g g' : Grid} (h : Step rows cols g g') :
    ∀ i j, cell g' i j = cell g i j ∨ (cell g i j = '@' ∧ cell g' i j = '.') := by
  cases h with
  | mk i j hi hj hat hrem =>
    intro a b
    by_cases he : a = i ∧ b = j
    · obtain ⟨rfl, rfl⟩ := he
      have hb := bounds_of_cell_at hat
      exact Or.inr ⟨hat, cell_setCell_same '.' hb.1 hb.2⟩
    · exact Or.inl (cell_setCell_other g i j '.' a b he)

theorem stepsN_mutation {rows cols : Nat} : ∀ {n : Nat} {g g' : Grid},
    StepsN rows cols n g g' →
    ∀ i j, cell g' i j = cell g i j ∨ (cell g i j = '@' ∧ cell g' i j = '.') := by
  intro n g g' h
  induction h with
  | refl g => exact fun i j => Or.inl rfl
  | head s _ ih =>
    intro i j
    rcases step_mutation s i j with h1 | h1
    · rcases ih i j with h2 | h2
      · exact Or.inl (h2.trans h1)
      · rw [h1] at h2
        exact Or.inr h2
    · rcases ih i j with h2 | h2
      · rw [h1.2] at h2
        exact Or.inr ⟨h1.1, h2⟩
      · rw [h1.2] at h2
        exact absurd h2.1 (by decide)

/-- Counterexample to C9 as stated: on the grid `[['@']]` the grid object
after `solve_part2` differs from the argument passed in — the `'@'` was
overwritten in place. -/
theorem day4_solve_part2_mutates :
    (solve_part2_run [['@']]).2 ≠ [['@']] := by decide

/-- C9 (amended): `solve_part2`'s result is a deterministic function of the
grid, but the call mutates the grid argument: afterwards every cell is
either unchanged or was changed in place from `'@'` to `'.'`. -/
theorem day4_solve_part2_mutation_shape (data : Grid) : ∀ i j,
    cell (solve_part2_run data).2 i j = cell data i j ∨
      (cell data i j = '@' ∧ cell (solve_part2_run data).2 i j = '.') := by
  by_cases hne : data.isEmpty = true
  · have hd : data = [] := by
      cases data with
      | nil => rfl
      | cons r rs => simp at hne
    subst hd
    exact fun i j => Or.inl (by rfl)
  · obtain ⟨n, gf, heq, hs, _⟩ := solve_part2_run_spec data hne
    rw [heq]
    exact stepsN_mutation hs

theorem cellIndices_nodup (rows cols : Nat) : (cellIndices rows cols).Nodup := by
  have h : cellIndices rows cols = (List.range rows).product (List.range cols) := rfl
  rw [h]
  exact List.Nodup.product (List.nodup_range rows) (List.nodup_range cols)

theorem pair_ne_of_not_and {x y : Nat × Nat} (h : ¬(x.1 = y.1 ∧ x.2 = y.2)) : x ≠ y := by
  intro he
  subst he
  exact h ⟨rfl, rfl⟩

/-- Applying a batch of justified removals one cell at a time is a run of
removal steps, and it clears exactly the batch. -/
theorem batch_steps (rows cols : Nat) : ∀ (R : List (Nat × Nat)) (g : Grid),
    R.Nodup →
    (∀ ij ∈ R, ij.1 < rows ∧ ij.2 < cols ∧ cell g ij.1 ij.2 = '@' ∧
      nbCount g ij.1 ij.2 rows cols < 4) →
    StepsN rows cols R.length g (R.foldl (fun h ij => setCell h ij.1 ij.2 '.') g) ∧
    (∀ a b, cell (R.foldl (fun h ij => setCell h ij.1 ij.2 '.') g) a b = '@' ↔
      (cell g a b = '@' ∧ (a, b) ∉ R)) := by
  intro R
  induction R with
  | nil =>
    intro g _ _
    exact ⟨StepsN.refl g, fun a b => by simp⟩
  | cons x rest ih =>
    intro g hnd hcond
    have hx := hcond x (List.mem_cons_self _ _)
    have hstep : Step rows cols g (setCell g x.1 x.2 '.') :=
      Step.mk g x.1 x.2 hx.1 hx.2.1 hx.2.2.1 hx.2.2.2
    have hxnotin : x ∉ rest := (List.nodup_cons.mp hnd).1
    have hcond' : ∀ ij ∈ rest, ij.1 < rows ∧ ij.2 < cols ∧
        cell (setCell g x.1 x.2 '.') ij.1 ij.2 = '@' ∧
        nbCount (setCell g x.1 x.2 '.') ij.1 ij.2 rows cols < 4 := by
      intro y hy
      have hyx : y ≠ x := fun he => hxnotin (he ▸ hy)
      have hyc := hcond y (List.mem_cons_of_mem _ hy)
      have hne : ¬(y.1 = x.1 ∧ y.2 = x.2) := by
        intro hand
        exact hyx (Prod.ext hand.1 hand.2)
      have hcell : cell (setCell g x.1 x.2 '.') y.1 y.2 = cell g y.1 y.2 :=
        cell_setCell_other g x.1 x.2 '.' y.1 y.2 hne
      refine ⟨hyc.1, hyc.2.1, by rw [hcell]; exact hyc.2.2.1, ?_⟩
      have hmono := nbCount_mono (step_sub hstep) y.1 y.2 rows cols
      omega
    obtain ⟨hs, hchar⟩ := ih (setCell g x.1 x.2 '.') (List.nodup_cons.mp hnd).2 hcond'
    constructor
    · exact StepsN.head hstep hs
    · intro a b
      rw [List.foldl_cons, hchar a b]
      by_cases hab : (a, b) = x
      · have ha1 : a = x.1 := congrArg Prod.fst hab
        have hb1 : b = x.2 := congrArg Prod.snd hab
        subst ha1; subst hb1
        have hb := bounds_of_cell_at hx.2.2.1
        rw [cell_setCell_same '.' hb.1 hb.2]
        constructor
        · intro hc; exact absurd hc.1 (by decide)
        · intro hc; exact absurd (List.mem_cons_self _ _) (hc.2)
      · have hne : ¬(a = x.1 ∧ b = x.2) := by
          intro hand
          exact hab (Prod.ext hand.1 hand.2)
        rw [cell_setCell_other g x.1 x.2 '.' a b hne]
        simp only [List.mem_cons]
        constructor
        · rintro ⟨h1, h2⟩
          exact ⟨h1, fun hor => hor.elim (fun he => hab he) h2⟩
        · rintro ⟨h1, h2⟩
          exact ⟨h1, fun hm => h2 (Or.inr hm)⟩

/-- The initial `at_positions` set of the tracking variants
(`src/Day4/day4.py`, lines 140-144 and 183-187): the in-bounds `'@'`
positions, as a canonically row-major-ordered duplicate-free list. -/
def build_at_positions (rows cols : Nat) (g : Grid) : List (Nat × Nat) :=
  (cellIndices rows cols).filter fun ij => decide (cell g ij.1 ij.2 = '@')

theorem mem_build {rows cols : Nat} {g : Grid} {ij : Nat × Nat} :
    ij ∈ build_at_positions rows cols g ↔
      ij.1 < rows ∧ ij.2 < cols ∧ cell g ij.1 ij.2 = '@' := by
  rw [build_at_positions, List.mem_filter, mem_cellIndices, decide_eq_true_eq, and_assoc]

theorem build_nodup (rows cols : Nat) (g : Grid) :
    (build_at_positions rows cols g).Nodup :=
  List.Nodup.filter _ (cellIndices_nodup rows cols)

theorem removable_ne_zero_iff (g : Grid) (i j rows cols : Nat) :
    removable_at_symbols g i j rows cols ≠ 0 ↔ nbCount g i j rows cols < 4 := by
  rw [removable_spec]
  by_cases h : nbCount g i j rows cols < 4
  · rw [if_pos h]; simp [h]
  · rw [if_neg h]; simp [h]

/-- Clearing exactly the cells of `R` turns the canonical `at_positions` list
into its restriction away from `R`. -/
theorem build_update (rows cols : Nat) (g g' : Grid) (R : List (Nat × Nat))
    (hchar : ∀ a b, cell g' a b = '@' ↔ (cell g a b = '@' ∧ (a, b) ∉ R)) :
    build_at_positions rows cols g' =
      (build_at_positions rows cols g).filter fun ij => decide (¬ ij ∈ R) := by
  rw [build_at_positions, build_at_positions, List.filter_filter]
  refine List.filter_congr ?_
  intro ij _
  obtain ⟨a, b⟩ := ij
  by_cases h1 : cell g a b = '@' <;> by_cases h2 : (a, b) ∈ R <;>
    simp [hchar a b, h1, h2]

/-- The removal collection of one round of `solve_part2_tracking_at_cells`
(`src/Day4/day4.py`, lines 148-153): the tracked positions whose
`removable_at_symbols` test is truthy. -/
def roundRemovalsB (rows cols : Nat) (g : Grid) (atPos : List (Nat × Nat)) :
    List (Nat × Nat) :=
  atPos.filter fun ij => decide (removable_at_symbols g ij.1 ij.2 rows cols ≠ 0)

/-- The `while True` loop of `solve_part2_tracking_at_cells`
(`src/Day4/day4.py`, lines 147-163), with fuel: collect the removable
tracked positions, stop when there are none, otherwise clear them all,
drop them from the tracking set, and recurse accumulating the count. -/
def loopB (rows cols : Nat) : Nat → Grid → List (Nat × Nat) → Int
  | 0, _, _ => 0
  | fuel + 1, g, atPos =>
      if (roundRemovalsB rows cols g atPos).isEmpty then 0
      else
        ((roundRemovalsB rows cols g atPos).length : Int) +
          loopB rows cols fuel
            ((roundRemovalsB rows cols g atPos).foldl
              (fun h ij => setCell h ij.1 ij.2 '.') g)
            (atPos.filter fun ij => decide (¬ ij ∈ roundRemovalsB rows cols g atPos))

/-- Embedding of `solve_part2_tracking_at_cells` (`src/Day4/day4.py`, lines
133-165); the Python `set` of `'@'` positions is modelled as a row-major
ordered duplicate-free list, which is sound because a round's removals and
count do not depend on the iteration order of the set. -/
def solve_part2_tracking_at_cells (data : Grid) : Int :=
  if data.isEmpty then 0
  else
    loopB data.length (data.headD []).length (atCount data + 1) data
      (build_at_positions data.length (data.headD []).length data)

theorem loopB_spec (rows cols : Nat) : ∀ (fuel : Nat) (g : Grid), atCount g < fuel →
    ∃ (n : Nat) (gf : Grid),
      loopB rows cols fuel g (build_at_positions rows cols g) = (n : Int) ∧
      StepsN rows cols n g gf ∧ NoRemovable gf rows cols := by
  intro fuel
  induction fuel with
  | zero => intro g h; omega
  | succ fuel ih =>
    intro g hg
    set A := build_at_positions rows cols g with hA
    set R := roundRemovalsB rows cols g A with hR
    by_cases hE : R.isEmpty = true
    · refine ⟨0, g, ?_, StepsN.refl g, ?_⟩
      · simp only [loopB]
        rw [← hR, if_pos hE]
        simp
      · intro i j hi hj hat
        have hmem : (i, j) ∈ A := by
          rw [hA]
          exact mem_build.mpr ⟨hi, hj, hat⟩
        have hnil : R = [] := List.isEmpty_iff.mp hE
        rw [hR, roundRemovalsB, List.filter_eq_nil_iff] at hnil
        have h0 : ¬ removable_at_symbols g i j rows cols ≠ 0 := by
          simpa using hnil (i, j) hmem
        have h4 := (not_congr (removable_ne_zero_iff g i j rows cols)).mp h0
        omega
    · have hprops : ∀ ij ∈ R, ij.1 < rows ∧ ij.2 < cols ∧ cell g ij.1 ij.2 = '@' ∧
          nbCount g ij.1 ij.2 rows cols < 4 := by
        intro ij hij
        rw [hR, roundRemovalsB, List.mem_filter, decide_eq_true_eq] at hij
        obtain ⟨hmemA, hrem⟩ := hij
        rw [hA] at hmemA
        obtain ⟨h1, h2, h3⟩ := mem_build.mp hmemA
        exact ⟨h1, h2, h3, (removable_ne_zero_iff g ij.1 ij.2 rows cols).mp hrem⟩
      have hRnd : R.Nodup := by
        rw [hR, roundRemovalsB]
        exact List.Nodup.filter _ (by rw [hA]; exact build_nodup rows cols g)
      obtain ⟨hsteps, hchar⟩ := batch_steps rows cols R g hRnd hprops
      have hlen := stepsN_atCount hsteps
      have hRne : R ≠ [] := fun h => hE (List.isEmpty_iff.mpr h)
      have hpos := List.length_pos_of_ne_nil hRne
      obtain ⟨n2, gf, heq2, hs2, hnr2⟩ :=
        ih (R.foldl (fun h ij => setCell h ij.1 ij.2 '.') g) (by omega)
      refine ⟨R.length + n2, gf, ?_, stepsN_trans hsteps hs2, hnr2⟩
      have hupd : A.filter (fun ij => decide (¬ ij ∈ R)) =
          build_at_positions rows cols
            (R.foldl (fun h ij => setCell h ij.1 ij.2 '.') g) := by
        rw [hA]
        exact (build_update rows cols g _ R hchar).symm
      simp only [loopB]
      rw [← hR, if_neg hE, hupd, heq2, Nat.cast_add]

/-- `solve_part2_tracking_at_cells` on a nonempty grid counts a maximal
sequence of removal steps. -/
theorem solve_part2_tracking_spec (data : Grid) (hne : ¬data.isEmpty = true) :
    ∃ (n : Nat) (gf : Grid),
      solve_part2_tracking_at_cells data = (n : Int) ∧
      StepsN data.length (data.headD []).length n data gf ∧
      NoRemovable gf data.length (data.headD []).length := by
  rw [solve_part2_tracking_at_cells, if_neg hne]
  exact loopB_spec data.length (data.headD []).length (atCount data + 1) data (by omega)

/-- One direction of the neighbor-rechecking loop of
`solve_part2_differential` (`src/Day4/day4.py`, lines 211-217): add the
in-bounds neighbor of the removed cell `ij` to `next_check` when it is still
in `at_positions`.  The `next_check` set is modelled as an insertion-ordered
duplicate-free list. -/
def nbStep (rows cols : Nat) (atPos : List (Nat × Nat)) (ij : Nat × Nat)
    (nx : List (Nat × Nat)) (d : Int × Int) : List (Nat × Nat) :=
  if 0 ≤ (ij.1 : Int) + d.1 ∧ (ij.1 : Int) + d.1 < (rows : Int) ∧
      0 ≤ (ij.2 : Int) + d.2 ∧ (ij.2 : Int) + d.2 < (cols : Int) ∧
      (((ij.1 : Int) + d.1).toNat, ((ij.2 : Int) + d.2).toNat) ∈ atPos then
    if (((ij.1 : Int) + d.1).toNat, ((ij.2 : Int) + d.2).toNat) ∈ nx then nx
    else nx ++ [(((ij.1 : Int) + d.1).toNat, ((ij.2 : Int) + d.2).toNat)]
  else nx

/-- The body of `for i, j in removals` in `solve_part2_differential`
(`src/Day4/day4.py`, lines 206-217), on the state
`(data, at_positions, next_check)`: clear the cell, drop it from
`at_positions`, and add its in-bounds still-tracked neighbors to
`next_check`.  The `di`/`dj` double loop enumerates the same eight offsets
as `directions`, in the same order. -/
def removal_body (rows cols : Nat)
    (s : Grid × List (Nat × Nat) × List (Nat × Nat)) (ij : Nat × Nat) :
    Grid × List (Nat × Nat) × List (Nat × Nat) :=
  (setCell s.1 ij.1 ij.2 '.',
   s.2.1.filter fun p => decide (¬ p = ij),
   directions.foldl
     (nbStep rows cols (s.2.1.filter fun p => decide (¬ p = ij)) ij) s.2.2)

/-- The removal collection of one round of `solve_part2_differential`
(`src/Day4/day4.py`, lines 194-200): the checked positions that are still
tracked and removable. -/
def roundRemovalsC (rows cols : Nat) (g : Grid) (atPos toCheck : List (Nat × Nat)) :
    List (Nat × Nat) :=
  toCheck.filter fun ij =>
    decide (ij ∈ atPos ∧ removable_at_symbols g ij.1 ij.2 rows cols ≠ 0)

/-- One full removal round of `solve_part2_differential`: the updated grid,
`at_positions`, and `next_check` after processing every removal. -/
def roundC (rows cols : Nat) (g : Grid) (atPos toCheck : List (Nat × Nat)) :
    Grid × List (Nat × Nat) × List (Nat × Nat) :=
  (roundRemovalsC rows cols g atPos toCheck).foldl (removal_body rows cols)
    (g, atPos, [])

/-- The `while cells_to_check` loop of `solve_part2_differential`
(`src/Day4/day4.py`, lines 193-220), with fuel. -/
def loopC (rows cols : Nat) : Nat → Grid → List (Nat × Nat) → List (Nat × Nat) → Int
  | 0, _, _, _ => 0
  | fuel + 1, g, atPos, toCheck =>
      if toCheck.isEmpty then 0
      else if (roundRemovalsC rows cols g atPos toCheck).isEmpty then 0
      else
        ((roundRemovalsC rows cols g atPos toCheck).length : Int) +
          loopC rows cols fuel (roundC rows cols g atPos toCheck).1
            (roundC rows cols g atPos toCheck).2.1
            (roundC rows cols g atPos toCheck).2.2

/-- Embedding of `solve_part2_differential` (`src/Day4/day4.py`, lines
168-222); both Python sets are modelled as duplicate-free lists,
`at_positions` in row-major order and `next_check` in insertion order,
which is sound because a round's removals and count do not depend on the
iteration order of the sets. -/
def solve_part2_differential (data : Grid) : Int :=
  if data.isEmpty then 0
  else
    loopC data.length (data.headD []).length (atCount data + 1) data
      (build_at_positions data.length (data.headD []).length data)
      (build_at_positions data.length (data.headD []).length data)

theorem fold_body_grid (rows cols : Nat) : ∀ (R : List (Nat × Nat))
    (s : Grid × List (Nat × Nat) × List (Nat × Nat)),
    (R.foldl (removal_body rows cols) s).1 =
      R.foldl (fun h ij => setCell h ij.1 ij.2 '.') s.1 := by
  intro R
  induction R with
  | nil => intro s; rfl
  | cons x rest ih =>
    intro s
    rw [List.foldl_cons, List.foldl_cons, ih]
    rfl

theorem fold_body_atPos (rows cols : Nat) : ∀ (R : List (Nat × Nat))
    (s : Grid × List (Nat × Nat) × List (Nat × Nat)),
    (R.foldl (removal_body rows cols) s).2.1 =
      s.2.1.filter fun p => decide (¬ p ∈ R) := by
  intro R
  induction R with
  | nil =>
    intro s
    simp
  | cons x rest ih =>
    intro s
    rw [List.foldl_cons, ih]
    show (s.2.1.filter fun p => decide (¬ p = x)).filter
        (fun p => decide (¬ p ∈ rest)) = _
    rw [List.filter_filter]
    refine List.filter_congr ?_
    intro p _
    by_cases h1 : p = x <;> by_cases h2 : p ∈ rest <;>
      simp [List.mem_cons, h1, h2]

theorem nbStep_mem_mono (rows cols : Nat) (atPos : List (Nat × Nat))
    (ij y : Nat × Nat) (nx : List (Nat × Nat)) (d : Int × Int) (h : y ∈ nx) :
    y ∈ nbStep rows cols atPos ij nx d := by
  rw [nbStep]
  split_ifs with h1 h2
  · exact h
  · exact List.mem_append_left _ h
  · exact h

theorem nbStep_adds (rows cols : Nat) (atPos : List (Nat × Nat)) (ij : Nat × Nat)
    (nx : List (Nat × Nat)) (d : Int × Int)
    (hc : 0 ≤ (ij.1 : Int) + d.1 ∧ (ij.1 : Int) + d.1 < (rows : Int) ∧
      0 ≤ (ij.2 : Int) + d.2 ∧ (ij.2 : Int) + d.2 < (cols : Int) ∧
      (((ij.1 : Int) + d.1).toNat, ((ij.2 : Int) + d.2).toNat) ∈ atPos) :
    (((ij.1 : Int) + d.1).toNat, ((ij.2 : Int) + d.2).toNat) ∈
      nbStep rows cols atPos ij nx d := by
  rw [nbStep, if_pos hc]
  split_ifs with h2
  · exact h2
  · exact List.mem_append_right _ (List.mem_singleton.mpr rfl)

theorem nbStep_nodup (rows cols : Nat) (atPos : List (Nat × Nat)) (ij : Nat × Nat)
    (nx : List (Nat × Nat)) (d : Int × Int) (h : nx.Nodup) :
    (nbStep rows cols atPos ij nx d).Nodup := by
  rw [nbStep]
  split_ifs with h1 h2
  · exact h
  · simp [List.nodup_append, h, h2]
  · exact h

theorem nbFold_mem_mono (rows cols : Nat) (atPos : List (Nat × Nat))
    (ij y : Nat × Nat) : ∀ (ds : List (Int × Int)) (nx : List (Nat × Nat)),
    y ∈ nx → y ∈ ds.foldl (nbStep rows cols atPos ij) nx := by
  intro ds
  induction ds with
  | nil => intro nx h; exact h
  | cons d rest ih =>
    intro nx h
    exact ih _ (nbStep_mem_mono rows cols atPos ij y nx d h)

theorem nbFold_adds (rows cols : Nat) (atPos : List (Nat × Nat)) (ij : Nat × Nat)
    (d : Int × Int)
    (hc : 0 ≤ (ij.1 : Int) + d.1 ∧ (ij.1 : Int) + d.1 < (rows : Int) ∧
      0 ≤ (ij.2 : Int) + d.2 ∧ (ij.2 : Int) + d.2 < (cols : Int) ∧
      (((ij.1 : Int) + d.1).toNat, ((ij.2 : Int) + d.2).toNat) ∈ atPos) :
    ∀ (ds : List (Int × Int)) (nx : List (Nat × Nat)), d ∈ ds →
      (((ij.1 : Int) + d.1).toNat, ((ij.2 : Int) + d.2).toNat) ∈
        ds.foldl (nbStep rows cols atPos ij) nx := by
  intro ds
  induction ds with
  | nil => intro nx h; exact absurd h (List.not_mem_nil d)
  | cons e rest ih =>
    intro nx hd
    rcases List.mem_cons.mp hd with rfl | hd
    · exact nbFold_mem_mono rows cols atPos ij _ rest _
        (nbStep_adds rows cols atPos ij nx d hc)
    · exact ih _ hd

theorem nbFold_nodup (rows cols : Nat) (atPos : List (Nat × Nat)) (ij : Nat × Nat) :
    ∀ (ds : List (Int × Int)) (nx : List (Nat × Nat)), nx.Nodup →
      (ds.foldl (nbStep rows cols atPos ij) nx).Nodup := by
  intro ds
  induction ds with
  | nil => intro nx h; exact h
  | cons d rest ih =>
    intro nx h
    exact ih _ (nbStep_nodup rows cols atPos ij nx d h)

theorem fold_body_next_mono (rows cols : Nat) {y : Nat × Nat} :
    ∀ (R : List (Nat × Nat)) (s : Grid × List (Nat × Nat) × List (Nat × Nat)),
    y ∈ s.2.2 → y ∈ (R.foldl (removal_body rows cols) s).2.2 := by
  intro R
  induction R with
  | nil => intro s h; exact h
  | cons x rest ih =>
    intro s h
    rw [List.foldl_cons]
    exact ih _ (nbFold_mem_mono rows cols _ x y directions s.2.2 h)

theorem fold_body_next_nodup (rows cols : Nat) :
    ∀ (R : List (Nat × Nat)) (s : Grid × List (Nat × Nat) × List (Nat × Nat)),
    s.2.2.Nodup → (R.foldl (removal_body rows cols) s).2.2.Nodup := by
  intro R
  induction R with
  | nil => intro s h; exact h
  | cons x rest ih =>
    intro s h
    rw [List.foldl_cons]
    exact ih _ (nbFold_nodup rows cols _ x directions s.2.2 h)

/-- `y` is one of the eight neighbors of `x`. -/
def isNbr (x y : Nat × Nat) : Prop :=
  ∃ d ∈ directions, (y.1 : Int) = (x.1 : Int) + d.1 ∧ (y.2 : Int) = (x.2 : Int) + d.2

theorem directions_neg : ∀ d ∈ directions, (-d.1, -d.2) ∈ directions := by decide

/-- Every surviving tracked cell adjacent to some removed cell ends up in
`next_check`. -/
theorem fold_body_cover (rows cols : Nat) : ∀ (R : List (Nat × Nat))
    (s : Grid × List (Nat × Nat) × List (Nat × Nat)) (y : Nat × Nat),
    y.1 < rows → y.2 < cols → y ∈ s.2.1 → ¬ y ∈ R → (∃ x ∈ R, isNbr x y) →
    y ∈ (R.foldl (removal_body rows cols) s).2.2 := by
  intro R
  induction R with
  | nil =>
    rintro s y _ _ _ _ ⟨x, hx, _⟩
    exact absurd hx (List.not_mem_nil x)
  | cons x rest ih =>
    rintro s y hy1 hy2 hyA hyR ⟨x0, hx0, hnbr⟩
    rw [List.foldl_cons]
    have hyx : ¬ y = x := fun he => hyR (by rw [he]; exact List.mem_cons_self _ _)
    have hyA' : y ∈ s.2.1.filter fun p => decide (¬ p = x) := by
      rw [List.mem_filter]
      exact ⟨hyA, by simpa using hyx⟩
    rcases List.mem_cons.mp hx0 with rfl | hx0rest
    · obtain ⟨d, hd, he1, he2⟩ := hnbr
      have hv1 : ((x0.1 : Int) + d.1).toNat = y.1 := by omega
      have hv2 : ((x0.2 : Int) + d.2).toNat = y.2 := by omega
      have hc : 0 ≤ (x0.1 : Int) + d.1 ∧ (x0.1 : Int) + d.1 < (rows : Int) ∧
          0 ≤ (x0.2 : Int) + d.2 ∧ (x0.2 : Int) + d.2 < (cols : Int) ∧
          (((x0.1 : Int) + d.1).toNat, ((x0.2 : Int) + d.2).toNat) ∈
            (s.2.1.filter fun p => decide (¬ p = x0)) := by
        refine ⟨by omega, by omega, by omega, by omega, ?_⟩
        rw [hv1, hv2, Prod.mk.eta]
        exact hyA'
      have hmem := nbFold_adds rows cols
        (s.2.1.filter fun p => decide (¬ p = x0)) x0 d hc directions s.2.2 hd
      rw [hv1, hv2, Prod.mk.eta] at hmem
      exact fold_body_next_mono rows cols rest (removal_body rows cols s x0) hmem
    · exact ih (removal_body rows cols s x) y hy1 hy2 hyA'
        (fun hr => hyR (List.mem_cons_of_mem _ hr)) ⟨x0, hx0rest, hnbr⟩

/-- `nbCount` only depends on the `'@'`-status of the in-bounds neighbor
cells. -/
theorem nbCount_congr_at {g g' : Grid} (i j rows cols : Nat)
    (h : ∀ d ∈ directions, 0 ≤ (i : Int) + d.1 → (i : Int) + d.1 < (rows : Int) →
      0 ≤ (j : Int) + d.2 → (j : Int) + d.2 < (cols : Int) →
      (cell g' ((i : Int) + d.1).toNat ((j : Int) + d.2).toNat = '@' ↔
        cell g ((i : Int) + d.1).toNat ((j : Int) + d.2).toNat = '@')) :
    nbCount g' i j rows cols = nbCount g i j rows cols := by
  rw [nbCount, nbCount]
  congr 1
  refine List.filter_congr ?_
  intro d hd
  rw [decide_eq_decide]
  constructor
  · rintro ⟨h1, h2, h3, h4, h5⟩
    exact ⟨h1, h2, h3, h4, (h d hd h1 h2 h3 h4).mp h5⟩
  · rintro ⟨h1, h2, h3, h4, h5⟩
    exact ⟨h1, h2, h3, h4, (h d hd h1 h2 h3 h4).mpr h5⟩

/-- The differential loop counts a maximal sequence of removal steps, under
the invariant that every in-bounds `'@'` cell outside `cells_to_check` is
already non-removable. -/
theorem loopC_spec (rows cols : Nat) : ∀ (fuel : Nat) (g : Grid) (T : List (Nat × Nat)),
    atCount g < fuel → T.Nodup →
    (∀ a b : Nat, a < rows → b < cols → cell g a b = '@' → ¬ (a, b) ∈ T →
      4 ≤ nbCount g a b rows cols) →
    ∃ (n : Nat) (gf : Grid),
      loopC rows cols fuel g (build_at_positions rows cols g) T = (n : Int) ∧
      StepsN rows cols n g gf ∧ NoRemovable gf rows cols := by
  intro fuel
  induction fuel with
  | zero => intro g T h; omega
  | succ fuel ih =>
    intro g T hfuel hTnd hinv
    set A := build_at_positions rows cols g with hA
    set R := roundRemovalsC rows cols g A T with hR
    by_cases hTE : T.isEmpty = true
    · refine ⟨0, g, ?_, StepsN.refl g, ?_⟩
      · simp only [loopC]
        rw [if_pos hTE]
        simp
      · intro i j hi hj hat
        refine hinv i j hi hj hat ?_
        rw [List.isEmpty_iff.mp hTE]
        exact List.not_mem_nil _
    · by_cases hRE : R.isEmpty = true
      · refine ⟨0, g, ?_, StepsN.refl g, ?_⟩
        · simp only [loopC]
          rw [← hR, if_neg hTE, if_pos hRE]
          simp
        · intro i j hi hj hat
          by_cases hiT : (i, j) ∈ T
          · have hnil : R = [] := List.isEmpty_iff.mp hRE
            rw [hR, roundRemovalsC, List.filter_eq_nil_iff] at hnil
            have hx := hnil (i, j) hiT
            simp only [decide_eq_true_eq] at hx
            have hmemA : (i, j) ∈ A := by
              rw [hA]
              exact mem_build.mpr ⟨hi, hj, hat⟩
            have h0 : ¬ removable_at_symbols g i j rows cols ≠ 0 :=
              fun hc => hx ⟨hmemA, hc⟩
            have h4 := (not_congr (removable_ne_zero_iff g i j rows cols)).mp h0
            omega
          · exact hinv i j hi hj hat hiT
      · have hprops : ∀ ij ∈ R, ij.1 < rows ∧ ij.2 < cols ∧ cell g ij.1 ij.2 = '@' ∧
            nbCount g ij.1 ij.2 rows cols < 4 := by
          intro ij hij
          rw [hR, roundRemovalsC, List.mem_filter, decide_eq_true_eq] at hij
          obtain ⟨hT, hmemA, hrem⟩ := hij
          rw [hA] at hmemA
          obtain ⟨h1, h2, h3⟩ := mem_build.mp hmemA
          exact ⟨h1, h2, h3, (removable_ne_zero_iff g ij.1 ij.2 rows cols).mp hrem⟩
        have hRnd : R.Nodup := by
          rw [hR, roundRemovalsC]
          exact List.Nodup.filter _ hTnd
        obtain ⟨hsteps, hchar⟩ := batch_steps rows cols R g hRnd hprops
        have hlen := stepsN_atCount hsteps
        have hRne : R ≠ [] := fun h => hRE (List.isEmpty_iff.mpr h)
        have hpos := List.length_pos_of_ne_nil hRne
        have hgrid : (roundC rows cols g A T).1 =
            R.foldl (fun h ij => setCell h ij.1 ij.2 '.') g := by
          rw [roundC, fold_body_grid, ← hR]
        have hatpos : (roundC rows cols g A T).2.1 =
            build_at_positions rows cols
              (R.foldl (fun h ij => setCell h ij.1 ij.2 '.') g) := by
          rw [roundC, fold_body_atPos, ← hR, hA]
          exact (build_update rows cols g _ R hchar).symm
        have hnext_nodup : (roundC rows cols g A T).2.2.Nodup := by
          rw [roundC]
          exact fold_body_next_nodup rows cols _ (g, A, []) List.nodup_nil
        have hinv' : ∀ a b : Nat, a < rows → b < cols →
            cell (R.foldl (fun h ij => setCell h ij.1 ij.2 '.') g) a b = '@' →
            ¬ (a, b) ∈ (roundC rows cols g A T).2.2 →
            4 ≤ nbCount (R.foldl (fun h ij => setCell h ij.1 ij.2 '.') g)
              a b rows cols := by
          intro a b ha hb hat hnT
          obtain ⟨hatg, hnR⟩ := (hchar a b).mp hat
          by_cases hnb : ∃ x ∈ R, isNbr x (a, b)
          · exfalso
            refine hnT ?_
            rw [roundC, ← hR]
            have hmemA : (a, b) ∈ A := by
              rw [hA]
              exact mem_build.mpr ⟨ha, hb, hatg⟩
            exact fold_body_cover rows cols R (g, A, []) (a, b) ha hb hmemA hnR hnb
          · push_neg at hnb
            have hcount : nbCount (R.foldl (fun h ij => setCell h ij.1 ij.2 '.') g)
                a b rows cols = nbCount g a b rows cols := by
              refine nbCount_congr_at a b rows cols ?_
              intro d hd h1 h2 h3 h4
              have hnotR : ¬ (((a : Int) + d.1).toNat, ((b : Int) + d.2).toNat) ∈ R := by
                intro hp
                refine hnb _ hp ⟨(-d.1, -d.2), directions_neg d hd, ?_, ?_⟩
                · show (a : Int) = ((((a : Int) + d.1).toNat : Nat) : Int) + -d.1
                  omega
                · show (b : Int) = ((((b : Int) + d.2).toNat : Nat) : Int) + -d.2
                  omega
              rw [hchar]
              simp [hnotR]
            rw [hcount]
            by_cases hT : (a, b) ∈ T
            · have hmemA : (a, b) ∈ A := by
                rw [hA]
                exact mem_build.mpr ⟨ha, hb, hatg⟩
              have hnc : ¬ ((a, b) ∈ A ∧ removable_at_symbols g a b rows cols ≠ 0) := by
                intro hc
                refine hnR ?_
                rw [hR, roundRemovalsC, List.mem_filter]
                exact ⟨hT, by simpa using hc⟩
              have h0 : ¬ removable_at_symbols g a b rows cols ≠ 0 :=
                fun hc => hnc ⟨hmemA, hc⟩
              have h4 := (not_congr (removable_ne_zero_iff g a b rows cols)).mp h0
              omega
            · exact hinv a b ha hb hatg hT
        obtain ⟨n2, gf, heq2, hs2, hnr2⟩ :=
          ih (R.foldl (fun h ij => setCell h ij.1 ij.2 '.') g)
            ((roundC rows cols g A T).2.2) (by omega) hnext_nodup hinv'
        refine ⟨R.length + n2, gf, ?_, stepsN_trans hsteps hs2, hnr2⟩
        simp only [loopC]
        rw [← hR, if_neg hTE, if_neg hRE, hgrid, hatpos, heq2, Nat.cast_add]

/-- `solve_part2_differential` on a nonempty grid counts a maximal sequence
of removal steps. -/
theorem solve_part2_differential_spec (data : Grid) (hne : ¬data.isEmpty = true) :
    ∃ (n : Nat) (gf : Grid),
      solve_part2_differential data = (n : Int) ∧
      StepsN data.length (data.headD []).length n data gf ∧
      NoRemovable gf data.length (data.headD []).length := by
  rw [solve_part2_differential, if_neg hne]
  refine loopC_spec data.length (data.headD []).length (atCount data + 1) data
    (build_at_positions data.length (data.headD []).length data)
    (by omega) (build_nodup _ _ _) ?_
  intro a b ha hb hat hnT
  exact absurd (mem_build.mpr ⟨ha, hb, hat⟩) hnT

/-- C2: for every finite rectangular grid, the three Day 4 part-2 variants
agree: `solve_part2` (in-place removal during each scan),
`solve_part2_tracking_at_cells` (batch removal per round), and
`solve_part2_differential` (rechecking only neighbors of removed cells),
each run on its own copy of the grid, return the same count of removed
cells. -/
theorem day4_part2_variants_agree (data : Grid) (hrect : Rect data) :
    solve_part2 data = solve_part2_tracking_at_cells data ∧
    solve_part2_tracking_at_cells data = solve_part2_differential data := by
  by_cases he : data.isEmpty = true
  · constructor
    · rw [solve_part2, solve_part2_run, if_pos he, solve_part2_tracking_at_cells,
        if_pos he]
    · rw [solve_part2_tracking_at_cells, if_pos he, solve_part2_differential,
        if_pos he]
  · obtain ⟨nA, gA, hA, hsA, hnA⟩ := solve_part2_run_spec data he
    obtain ⟨nB, gB, hB, hsB, hnB⟩ := solve_part2_tracking_spec data he
    obtain ⟨nC, gC, hC, hsC, hnC⟩ := solve_part2_differential_spec data he
    constructor
    · have hab := normal_forms_count hsA hnA hsB hnB
      rw [solve_part2, hA, hB, hab]
    · have hbc := normal_forms_count hsB hnB hsC hnC
      rw [hB, hC, hbc]

/-- Witness for C2 at the rectangular grid `[['@', '@'], ['@', '@']]`. -/
theorem day4_part2_variants_agree_witness :
    Rect [['@', '@'], ['@', '@']] ∧
      (solve_part2 [['@', '@'], ['@', '@']] =
          solve_part2_tracking_at_cells [['@', '@'], ['@', '@']] ∧
        solve_part2_tracking_at_cells [['@', '@'], ['@', '@']] =
          solve_part2_differential [['@', '@'], ['@', '@']]) := by
  have hrect : Rect [['@', '@'], ['@', '@']] := by
    intro row hrow
    rcases List.mem_cons.mp hrow with rfl | hrow
    · rfl
    · rcases List.mem_singleton.mp hrow with rfl
      rfl
  exact ⟨hrect, day4_part2_variants_agree _ hrect⟩

end Day4

end AoC
